import Mathlib

/-!
Verification development for the mentor/founder matching engine
(`NEXT_Canada_Code.py`).

The Python program is embedded shallowly:

* Python `dict` values become association lists (`Dict`) whose `insert`
  updates an existing key in place and otherwise appends, matching
  CPython's insertion-ordered dictionaries.
* The CSV reader is out of scope (spec §1); the loaders receive the parsed
  rows (each row a `List String`) and perform the per-row logic of
  `load_mentor_data` / `load_founder_data`.
* `int(float(s))` capacity parsing is modelled by `py_int_of_float` over
  Python's float-literal grammar, with `ValueError` (caught by the source's
  `except ValueError`) and `OverflowError` (uncaught: the loader crashes on
  infinite inputs) kept distinct.
* The matching solver is the external routine
  `networkx.max_weight_matching(G, maxcardinality=True)`, which is not part
  of the repository; it is modelled from the spec (§4.4) as the
  lexicographic optimum over all matchings of the graph.
-/

set_option maxRecDepth 8000

namespace MentorMatch

/-- Association-list model of a Python `dict` with `String` keys:
insertion-ordered, unique keys when built by `insert`. -/
abbrev Dict (α : Type) : Type := List (String × α)

/-- Python `d[k] = v`: update the value in place if the key is present,
otherwise append the new binding. -/
def Dict.insert {α : Type} (d : Dict α) (k : String) (v : α) : Dict α :=
  if d.any (fun p => p.1 == k) then
    d.map (fun p => if p.1 == k then (k, v) else p)
  else
    d ++ [(k, v)]

/-- Python `d.get(k)` as an option (`None` when the key is absent). -/
def Dict.get? {α : Type} (d : Dict α) (k : String) : Option α :=
  (d.find? (fun p => p.1 == k)).map (fun p => p.2)

/-- Python `d.get(k, dflt)`. -/
def Dict.getD {α : Type} (d : Dict α) (k : String) (dflt : α) : α :=
  (Dict.get? d k).getD dflt

/-- Python `list(d.keys())`. -/
def Dict.keys {α : Type} (d : Dict α) : List String :=
  d.map (fun p => p.1)

/-- Python `str.strip()`: remove leading and trailing whitespace.  (A
kernel-executable model of `String.trim`, working on the character list.) -/
def strip (s : String) : String :=
  ⟨(((s.data.dropWhile Char.isWhitespace).reverse.dropWhile Char.isWhitespace).reverse)⟩

/-- The `rank_to_points = {0:5, 1:4, 2:3, 3:2, 4:1}` table of the loaders.
The loaders only apply it to indices `0..4` (picks come from `row[1:6]`). -/
def rank_to_points : Nat → Nat
  | 0 => 5
  | 1 => 4
  | 2 => 3
  | 3 => 2
  | 4 => 1
  | _ => 0

/-- One step of the pick-parsing loop shared by both loaders:
`p = pick.strip(); if p: prefs_dict[p] = rank_to_points[i]`. -/
def parse_pick (d : Dict Nat) (ip : Nat × String) : Dict Nat :=
  let p := strip ip.2
  if p ≠ "" then Dict.insert d p (rank_to_points ip.1) else d

/-- The pick-parsing loop shared by both loaders:
`for i, pick in enumerate(picks): ...`. -/
def parse_prefs (picks : List String) : Dict Nat :=
  picks.enum.foldl parse_pick []

/-- The value of a list of decimal digit characters. -/
def digitsToNat (l : List Char) : Nat :=
  l.foldl (fun a c => 10 * a + (c.toNat - 48)) 0

/-- Outcome of Python `int(float(s))`: the truncated integer value, a
`ValueError` (string that `float()` rejects, or `int(nan)`), or the
`OverflowError` of `int(±inf)`. -/
inductive PyIntFloat where
  | ok (v : Int)
  | valueError
  | overflowError
deriving DecidableEq, Repr

/-- One digit group of Python's float-literal grammar: nonempty, decimal
digits with single underscores strictly between digits; returns its value. -/
def digitGroup? (l : List Char) : Option Nat :=
  let ok : Bool :=
    !l.isEmpty &&
      l.all (fun c => c.isDigit || c == '_') &&
      (match l.head? with | some c => !(c == '_') | none => false) &&
      (match l.getLast? with | some c => !(c == '_') | none => false) &&
      (l.zip l.tail).all (fun p => !(p.1 == '_' && p.2 == '_'))
  if ok then some (digitsToNat (l.filter (fun c => !(c == '_')))) else none

/-- Models Python `int(float(s))` over the float-literal grammar (ASCII): an
optional sign; the keywords `inf`/`infinity`/`nan` (case insensitive);
otherwise digit groups with an optional fractional part and an optional
decimal exponent.  A string `float()` rejects, and `nan`, give `ValueError`;
a value of magnitude `2 ^ 1024` or more (including the infinity keywords)
overflows the double and `int()` raises `OverflowError`; any other value is
computed exactly and truncated toward zero.  Not modelled: IEEE-754 rounding
(mantissas beyond 53 bits are kept exact, and the half-ulp region just below
`2 ^ 1024` counts as finite) and non-ASCII decimal digits. -/
def py_int_of_float (s : String) : PyIntFloat :=
  let t := s.data
  let sr : Int × List Char :=
    match t with
    | '-' :: r => (-1, r)
    | '+' :: r => (1, r)
    | r => (1, r)
  let low := sr.2.map Char.toLower
  if low == "inf".data || low == "infinity".data then .overflowError
  else if low == "nan".data then .valueError
  else
    let mantissa := sr.2.takeWhile (fun c => !(c == 'e' || c == 'E'))
    let erest := sr.2.dropWhile (fun c => !(c == 'e' || c == 'E'))
    let expVal? : Option Int :=
      match erest with
      | [] => some 0
      | _ :: r =>
        let es : Int × List Char :=
          match r with
          | '-' :: r2 => (-1, r2)
          | '+' :: r2 => (1, r2)
          | r2 => (1, r2)
        match digitGroup? es.2 with
        | some n => some (es.1 * n)
        | none => none
    let ip := mantissa.takeWhile (fun c => !(c == '.'))
    let dotrest := mantissa.dropWhile (fun c => !(c == '.'))
    let mant? : Option (Nat × Nat) :=
      match dotrest with
      | [] =>
        match digitGroup? ip with
        | some n => some (n, 0)
        | none => none
      | _ :: fr =>
        if ip.isEmpty && fr.isEmpty then none
        else
          let ipv? : Option Nat := if ip.isEmpty then some 0 else digitGroup? ip
          let frv? : Option (Nat × Nat) :=
            if fr.isEmpty then some (0, 0)
            else
              match digitGroup? fr with
              | some n => some (n, (fr.filter (fun c => !(c == '_'))).length)
              | none => none
          match ipv?, frv? with
          | some a, some bs => some (a * 10 ^ bs.2 + bs.1, bs.2)
          | _, _ => none
    match mant?, expVal? with
    | some ms, some e =>
      let k : Int := e - ms.2
      let mag : Nat := if 0 ≤ k then ms.1 * 10 ^ k.toNat else ms.1 / 10 ^ (-k).toNat
      if 2 ^ 1024 ≤ mag then .overflowError else .ok (sr.1 * mag)
    | _, _ => .valueError

/-- `try: capacity = int(float(capacity_str.strip())) except ValueError:
capacity = 1`, with the crash path kept distinct: a `ValueError` is caught
and falls back to 1, while the `OverflowError` of an infinite input is not
caught by `except ValueError`, so the loader fails (`Except.error`). -/
def parse_capacity_checked (capacity_str : String) : Except Unit Int :=
  match py_int_of_float (strip capacity_str) with
  | .ok v => .ok v
  | .valueError => .ok 1
  | .overflowError => .error ()

/-- The totalized capacity parse used by the pipeline model: as
`parse_capacity_checked`, except that the crash case (uncaught
`OverflowError` on an infinite capacity string, on which the real loader
fails) is collapsed to 1 to keep the pipeline total;
`parse_capacity_checked` is the authority for that case. -/
def parse_capacity (capacity_str : String) : Int :=
  match py_int_of_float (strip capacity_str) with
  | .ok v => v
  | _ => 1

/-- The capacity field of a mentor row: `row[6] if len(row) >= 7 else "1"`. -/
def capacity_field (row : List String) : String :=
  if 7 ≤ row.length then row.getD 6 "" else "1"

/-- One iteration of the row loop of `load_mentor_data`. -/
def load_mentor_row (acc : Dict (Dict Nat) × Dict Int) (row : List String) :
    Dict (Dict Nat) × Dict Int :=
  if row.isEmpty then acc
  else
    let mentor_name := strip (row.headD "")
    let picks := (row.drop 1).take 5
    let capacity := parse_capacity (capacity_field row)
    let prefs_dict := parse_prefs picks
    (Dict.insert acc.1 mentor_name prefs_dict,
     Dict.insert acc.2 mentor_name capacity)

/-- Per-row logic of `load_mentor_data`, fed the parsed CSV rows
(header already removed); empty rows are skipped, `picks = row[1:6]`. -/
def load_mentor_data (rows : List (List String)) : Dict (Dict Nat) × Dict Int :=
  rows.foldl load_mentor_row ([], [])

/-- One iteration of the row loop of `load_founder_data`. -/
def load_founder_row (acc : Dict (Dict Nat)) (row : List String) : Dict (Dict Nat) :=
  if row.isEmpty then acc
  else Dict.insert acc (strip (row.headD "")) (parse_prefs ((row.drop 1).take 5))

/-- Per-row logic of `load_founder_data` (no capacity column). -/
def load_founder_data (rows : List (List String)) : Dict (Dict Nat) :=
  rows.foldl load_founder_row []

/-- The slot name `f"{name}_slot{i+1}"`. -/
def slotName (name : String) (i : Nat) : String :=
  name ++ "_slot" ++ toString (i + 1)

/-- The character data of the `"_slot"` separator inside slot names. -/
def sepL : List Char := ['_', 's', 'l', 'o', 't']

/-- The body of the slot loop: record the parent's preference dict and the
back-reference for slot `i` of `name`. -/
def expand_slot (prefs : Dict (Dict Nat)) (name : String)
    (acc : Dict (Dict Nat) × Dict String) (i : Nat) :
    Dict (Dict Nat) × Dict String :=
  let slot_name := slotName name i
  (Dict.insert acc.1 slot_name (Dict.getD prefs name []),
   Dict.insert acc.2 slot_name name)

/-- The slots of one participant: `for i in range(capacity)`.  A Python
`int` capacity below zero yields no slots (`range` is empty), hence
`Int.toNat`. -/
def expand_participant (prefs : Dict (Dict Nat))
    (acc : Dict (Dict Nat) × Dict String) (p : String × Int) :
    Dict (Dict Nat) × Dict String :=
  (List.range p.2.toNat).foldl (expand_slot prefs p.1) acc

/-- The slot generation loop common to `expand_mentors_by_capacity` and
`expand_founders_by_capacity`. -/
def expand_by_capacity (prefs : Dict (Dict Nat)) (caps : Dict Int) :
    Dict (Dict Nat) × Dict String :=
  caps.foldl (expand_participant prefs) ([], [])

/-- `expand_mentors_by_capacity(mentor_prefs, mentor_caps)`. -/
def expand_mentors_by_capacity (mentor_prefs : Dict (Dict Nat))
    (mentor_caps : Dict Int) : Dict (Dict Nat) × Dict String :=
  expand_by_capacity mentor_prefs mentor_caps

/-- `expand_founders_by_capacity(founder_prefs, founder_caps)`. -/
def expand_founders_by_capacity (founder_prefs : Dict (Dict Nat))
    (founder_caps : Dict Int) : Dict (Dict Nat) × Dict String :=
  expand_by_capacity founder_prefs founder_caps

/-- The slot back-reference list a successful expansion produces:
one `(slot name, parent)` entry per capacity unit, in generation order. -/
def slotEntries (caps : Dict Int) : List (String × String) :=
  caps.flatMap (fun p => (List.range p.2.toNat).map (fun i => (slotName p.1 i, p.1)))

/-- The slot preference list a successful expansion produces. -/
def slotPrefEntries (prefs : Dict (Dict Nat)) (caps : Dict Int) :
    List (String × Dict Nat) :=
  caps.flatMap
    (fun p => (List.range p.2.toNat).map (fun i => (slotName p.1 i, Dict.getD prefs p.1 [])))

/-- All slot names generated from a capacity dict. -/
def slotNames (caps : Dict Int) : List String :=
  caps.flatMap (fun p => (List.range p.2.toNat).map (slotName p.1))

/-- A weighted edge of the bipartite graph, oriented mentor-slot first. -/
structure Edge where
  ms : String
  fs : String
  w : Nat
deriving DecidableEq, Repr

/-- `build_bipartite_graph`: the double loop over mentor slots and founder
slots; an edge is added exactly when at least one side's points are
positive, with weight `mentor_points + founder_points` plus the overlap
bonus when both are positive.  The graph is represented by its edge list
(the node sets that `networkx` also stores play no role in the claims). -/
def build_bipartite_graph (expanded_mentor_prefs : Dict (Dict Nat))
    (slot_to_mentor : Dict String)
    (expanded_founder_prefs : Dict (Dict Nat))
    (slot_to_founder : Dict String)
    (overlap_bonus : Nat) : List Edge :=
  (Dict.keys expanded_mentor_prefs).flatMap
    (fun ms =>
      (Dict.keys expanded_founder_prefs).filterMap
        (fun fs =>
          let mentor_name := (Dict.get? slot_to_mentor ms).getD ""
          let founder_name := (Dict.get? slot_to_founder fs).getD ""
          let mentor_points := Dict.getD ((Dict.get? expanded_mentor_prefs ms).getD []) founder_name 0
          let founder_points := Dict.getD ((Dict.get? expanded_founder_prefs fs).getD []) mentor_name 0
          if mentor_points > 0 || founder_points > 0 then
            some ⟨ms, fs,
              mentor_points + founder_points +
                (if mentor_points > 0 && founder_points > 0 then overlap_bonus else 0)⟩
          else none))

/-- The weight a built edge between slots of parents `m` and `f` carries,
as a function of the two parents' preference dicts alone. -/
def synergy (mentor_prefs founder_prefs : Dict (Dict Nat)) (overlap_bonus : Nat)
    (m f : String) : Nat :=
  let mentor_points := Dict.getD (Dict.getD mentor_prefs m []) f 0
  let founder_points := Dict.getD (Dict.getD founder_prefs f []) m 0
  mentor_points + founder_points +
    (if mentor_points > 0 && founder_points > 0 then overlap_bonus else 0)

/-- The two endpoint slots of an edge. -/
def edgeNodes (e : Edge) : List String := [e.ms, e.fs]

/-- A set of edges is a matching when no slot occurs twice among the
endpoints of the selected edges. -/
def isMatching (m : List Edge) : Prop :=
  (m.flatMap edgeNodes).Nodup

instance (m : List Edge) : Decidable (isMatching m) :=
  inferInstanceAs (Decidable (List.Nodup _))

/-- Total weight of a set of edges. -/
def matchWeight (m : List Edge) : Nat :=
  (m.map (fun e => e.w)).sum

/-- Strict lexicographic comparison on (cardinality, total weight). -/
def lexBetter (a b : List Edge) : Bool :=
  decide (a.length < b.length) ||
    (a.length == b.length && decide (matchWeight a < matchWeight b))

/-- Non-strict lexicographic order on (cardinality, total weight). -/
def lexLE (a b : List Edge) : Prop :=
  a.length < b.length ∨ (a.length = b.length ∧ matchWeight a ≤ matchWeight b)

/-- Keep the lexicographically better of two candidate matchings. -/
def pickBetter (best m : List Edge) : List Edge :=
  if lexBetter best m then m else best

/-- Modelled from the spec: the repository delegates the solver to
`networkx.max_weight_matching(G, maxcardinality=True)`, an external library
routine whose code is not under `src/`.  Spec §4.4: the solver returns a
matching of maximum cardinality and, among those, of maximum total weight.
Here it is realised as the brute-force lexicographic optimum over all
matchings contained in the edge list (deterministic for a fixed input). -/
def run_maximum_cardinality_max_weight (G : List Edge) : List Edge :=
  ((G.sublists).filter (fun m => decide (isMatching m))).foldl pickBetter []

/-- One row of the deduplicated pair list (`pairs_data` without the
free-text rendering). -/
structure PairRow where
  mentor : String
  founder : String
  mentorPoints : Nat
  founderPoints : Nat
  score : Nat
deriving DecidableEq, Repr

/-- The parent pair a matched edge resolves to (`slot_to_mentor[ms]`,
`slot_to_founder[fs]`). -/
def parentPair (slot_to_mentor slot_to_founder : Dict String) (e : Edge) :
    String × String :=
  ((Dict.get? slot_to_mentor e.ms).getD "", (Dict.get? slot_to_founder e.fs).getD "")

/-- The `PairRow` built for a matched edge. -/
def rowOf (expanded_mentor_prefs expanded_founder_prefs : Dict (Dict Nat))
    (slot_to_mentor slot_to_founder : Dict String) (e : Edge) : PairRow :=
  let mentor_name := (Dict.get? slot_to_mentor e.ms).getD ""
  let founder_name := (Dict.get? slot_to_founder e.fs).getD ""
  let mentor_points := Dict.getD ((Dict.get? expanded_mentor_prefs e.ms).getD []) founder_name 0
  let founder_points := Dict.getD ((Dict.get? expanded_founder_prefs e.fs).getD []) mentor_name 0
  ⟨mentor_name, founder_name, mentor_points, founder_points, e.w⟩

/-- One iteration of the aggregation loop of `run_matching`: skip an edge
whose parent pair was already seen (`used_pairs`), otherwise record the
pair row and add its weight to the running total. -/
def aggStep (expanded_mentor_prefs expanded_founder_prefs : Dict (Dict Nat))
    (slot_to_mentor slot_to_founder : Dict String)
    (acc : List (String × String) × List PairRow × Nat) (e : Edge) :
    List (String × String) × List PairRow × Nat :=
  let key := parentPair slot_to_mentor slot_to_founder e
  if key ∈ acc.1 then acc
  else
    (acc.1 ++ [key],
     acc.2.1 ++ [rowOf expanded_mentor_prefs expanded_founder_prefs
        slot_to_mentor slot_to_founder e],
     acc.2.2 + e.w)

/-- The aggregation loop of `run_matching` over the matched edges,
returning (`used_pairs`, `pairs_data`, `total_weight`). -/
def aggregate (expanded_mentor_prefs expanded_founder_prefs : Dict (Dict Nat))
    (slot_to_mentor slot_to_founder : Dict String)
    (matched : List Edge) :
    List (String × String) × List PairRow × Nat :=
  matched.foldl
    (aggStep expanded_mentor_prefs expanded_founder_prefs slot_to_mentor slot_to_founder)
    ([], [], 0)

/-- First-occurrence deduplication of a matched edge list by parent pair;
`seen` is the list of parent pairs already recorded. -/
def dedupByKey (slot_to_mentor slot_to_founder : Dict String)
    (seen : List (String × String)) : List Edge → List Edge
  | [] => []
  | e :: es =>
    let key := parentPair slot_to_mentor slot_to_founder e
    if key ∈ seen then dedupByKey slot_to_mentor slot_to_founder seen es
    else e :: dedupByKey slot_to_mentor slot_to_founder (seen ++ [key]) es

/-- `counts[name] = counts.get(name, 0) + 1`. -/
def bump (d : Dict Nat) (k : String) : Dict Nat :=
  Dict.insert d k (Dict.getD d k 0 + 1)

/-- One iteration of the match-count loop:
`for mentor, founder in used_pairs` bumps both counters. -/
def bumpStep (cs : Dict Nat × Dict Nat) (p : String × String) : Dict Nat × Dict Nat :=
  (bump cs.1 p.1, bump cs.2 p.2)

/-- The structured result of `run_matching` (the free-text `result_lines`
rendering of the same data is out of scope, spec §1). -/
structure MatchResult where
  pairs : List PairRow
  used_pairs : List (String × String)
  total_weight : Nat
  mentor_counts : Dict Nat
  founder_counts : Dict Nat
  mentor_summary : List (String × Nat × Option Int)
  founder_summary : List (String × Nat × Nat)
deriving Repr

/-- `run_matching`, fed the parsed CSV rows of both files: load, fix the
founder capacity at 2, expand both sides, build the graph with overlap
bonus 2, solve, deduplicate by parent pair, and build the per-participant
match-count summaries (one entry per participant occurring in
`used_pairs`, reported against `mentor_caps.get(mentor)` resp. the
constant 2). -/
def run_matching (mentorRows founderRows : List (List String)) : MatchResult :=
  let loaded := load_mentor_data mentorRows
  let mentor_prefs := loaded.1
  let mentor_caps := loaded.2
  let founder_prefs := load_founder_data founderRows
  let founder_caps : Dict Int := founder_prefs.map (fun p => (p.1, (2 : Int)))
  let em := expand_mentors_by_capacity mentor_prefs mentor_caps
  let ef := expand_founders_by_capacity founder_prefs founder_caps
  let G := build_bipartite_graph em.1 em.2 ef.1 ef.2 2
  let matched := run_maximum_cardinality_max_weight G
  let agg := aggregate em.1 ef.1 em.2 ef.2 matched
  let used_pairs := agg.1
  let counts := used_pairs.foldl bumpStep (([] : Dict Nat), ([] : Dict Nat))
  { pairs := agg.2.1
    used_pairs := used_pairs
    total_weight := agg.2.2
    mentor_counts := counts.1
    founder_counts := counts.2
    mentor_summary := counts.1.map (fun p => (p.1, p.2, Dict.get? mentor_caps p.1))
    founder_summary := counts.2.map (fun p => (p.1, p.2, 2)) }

/-! ### Association-list dictionary lemmas -/

theorem Dict.get?_cons {α : Type} (p : String × α) (d : Dict α) (k : String) :
    Dict.get? (p :: d) k = if p.1 == k then some p.2 else Dict.get? d k := by
  unfold Dict.get?
  rw [List.find?_cons]
  by_cases h : (p.1 == k) = true <;> simp [h]

theorem Dict.get?_insert_self {α : Type} (d : Dict α) (k : String) (v : α) :
    Dict.get? (Dict.insert d k v) k = some v := by
  unfold Dict.insert Dict.get?
  by_cases h : d.any (fun p => p.1 == k)
  · rw [if_pos h, List.find?_map]
    have hpred : ((fun p : String × α => p.1 == k) ∘
        (fun p : String × α => if p.1 == k then (k, v) else p)) =
        (fun p : String × α => p.1 == k) := by
      funext q
      by_cases hq : q.1 = k <;> simp [Function.comp, hq]
    rw [hpred]
    cases hfind : d.find? (fun p => p.1 == k) with
    | none =>
      exfalso
      obtain ⟨q, hq, hqk⟩ := List.any_eq_true.1 h
      exact (List.find?_eq_none.1 hfind q hq) hqk
    | some q0 =>
      have hq0k : q0.1 = k := by simpa using List.find?_some hfind
      simp [hq0k]
  · rw [if_neg h, List.find?_append]
    have hnone : d.find? (fun p => p.1 == k) = none := by
      rw [List.find?_eq_none]
      intro x hx hxk
      exact h (List.any_eq_true.2 ⟨x, hx, hxk⟩)
    simp [hnone]

theorem Dict.get?_insert_ne {α : Type} (d : Dict α) (k k' : String) (v : α)
    (h : k' ≠ k) : Dict.get? (Dict.insert d k v) k' = Dict.get? d k' := by
  unfold Dict.insert Dict.get?
  by_cases hd : d.any (fun p => p.1 == k)
  · rw [if_pos hd, List.find?_map]
    have hpred : ((fun p : String × α => p.1 == k') ∘
        (fun p : String × α => if p.1 == k then (k, v) else p)) =
        (fun p : String × α => p.1 == k') := by
      funext q
      by_cases hq : q.1 = k
      · simp [Function.comp, hq, Ne.symm h]
      · simp [Function.comp, hq]
    rw [hpred]
    cases hfind : d.find? (fun p => p.1 == k') with
    | none => simp
    | some q =>
      have hq1 : q.1 = k' := by simpa using List.find?_some hfind
      simp [hq1, h]
  · rw [if_neg hd, List.find?_append]
    have : List.find? (fun p : String × α => p.1 == k') [(k, v)] = none := by
      simp [Ne.symm h]
    simp [this]

theorem Dict.keys_insert {α : Type} (d : Dict α) (k : String) (v : α) :
    Dict.keys (Dict.insert d k v) =
      if k ∈ Dict.keys d then Dict.keys d else Dict.keys d ++ [k] := by
  unfold Dict.insert Dict.keys
  by_cases h : d.any (fun p => p.1 == k)
  · obtain ⟨q, hq, hqk⟩ := List.any_eq_true.1 h
    have hk : k ∈ d.map (fun p => p.1) :=
      List.mem_map.2 ⟨q, hq, by simpa using hqk⟩
    rw [if_pos h, if_pos hk, List.map_map]
    refine List.map_congr_left ?_
    intro q hq
    by_cases hqk : q.1 = k <;> simp [Function.comp, hqk]
  · have hk : k ∉ d.map (fun p => p.1) := by
      intro hmem
      obtain ⟨q, hq, hqk⟩ := List.mem_map.1 hmem
      exact absurd (List.any_eq_true.2 ⟨q, hq, by simp [hqk]⟩) h
    rw [if_neg h, if_neg hk]
    simp

theorem Dict.keys_insert_nodup {α : Type} (d : Dict α) (k : String) (v : α)
    (h : (Dict.keys d).Nodup) : (Dict.keys (Dict.insert d k v)).Nodup := by
  rw [Dict.keys_insert]
  by_cases hk : k ∈ Dict.keys d
  · simpa [hk] using h
  · rw [if_neg hk]
    exact h.append (List.nodup_singleton k) (List.disjoint_singleton.2 hk)

theorem Dict.insert_of_not_mem {α : Type} (d : Dict α) (k : String) (v : α)
    (h : k ∉ Dict.keys d) : Dict.insert d k v = d ++ [(k, v)] := by
  unfold Dict.insert
  have hany : d.any (fun p => p.1 == k) = false := by
    rw [Bool.eq_false_iff]
    intro hcontra
    obtain ⟨q, hq, hqk⟩ := List.any_eq_true.1 hcontra
    exact h (List.mem_map.2 ⟨q, hq, by simpa using hqk⟩)
  simp [hany]

theorem Dict.mem_of_get?_eq_some {α : Type} {d : Dict α} {k : String} {v : α}
    (h : Dict.get? d k = some v) : (k, v) ∈ d := by
  unfold Dict.get? at h
  cases hfind : d.find? (fun p => p.1 == k) with
  | none => rw [hfind] at h; simp at h
  | some q =>
    rw [hfind] at h
    have hq1 : q.1 = k := by simpa using List.find?_some hfind
    have hq2 : q.2 = v := by simpa using h
    have hqe : q = (k, v) := by
      cases q
      simp_all
    exact hqe ▸ List.mem_of_find?_eq_some hfind

theorem Dict.get?_eq_some_of_mem {α : Type} {d : Dict α} {k : String} {v : α}
    (hnodup : (Dict.keys d).Nodup) (hmem : (k, v) ∈ d) :
    Dict.get? d k = some v := by
  induction d with
  | nil => simp at hmem
  | cons p d ih =>
    rw [Dict.keys] at hnodup
    simp only [List.map_cons, List.nodup_cons] at hnodup
    rcases List.mem_cons.1 hmem with h | h
    · subst h
      unfold Dict.get?
      simp
    · have hk : k ∈ Dict.keys d := List.mem_map.2 ⟨(k, v), h, rfl⟩
      have hne : ¬ ((p.1 == k) = true) := by
        intro hbeq
        exact hnodup.1 ((by simpa using hbeq : p.1 = k) ▸ hk)
      rw [Dict.get?_cons, if_neg hne]
      exact ih hnodup.2 h

theorem Dict.get?_isSome_of_mem_keys {α : Type} {d : Dict α} {k : String}
    (h : k ∈ Dict.keys d) : (Dict.get? d k).isSome := by
  obtain ⟨q, hq, hq1⟩ := List.mem_map.1 h
  cases hfind : d.find? (fun p => p.1 == k) with
  | none => exact absurd ((List.find?_eq_none.1 hfind) q hq) (by simp [hq1])
  | some q0 =>
    unfold Dict.get?
    rw [hfind]
    rfl

theorem Dict.keys_of_get?_eq_some {α : Type} {d : Dict α} {k : String} {v : α}
    (h : Dict.get? d k = some v) : k ∈ Dict.keys d :=
  List.mem_map.2 ⟨(k, v), Dict.mem_of_get?_eq_some h, rfl⟩

/-! ### Decimal representation facts (for slot-name injectivity) -/

theorem toDigitsCore_eq_append (b : Nat) :
    ∀ (fuel n : Nat) (acc : List Char),
      Nat.toDigitsCore b fuel n acc = Nat.toDigitsCore b fuel n [] ++ acc := by
  intro fuel
  induction fuel with
  | zero => intro n acc; simp [Nat.toDigitsCore]
  | succ f ih =>
    intro n acc
    simp only [Nat.toDigitsCore]
    by_cases h : n / b = 0
    · simp [h]
    · rw [if_neg h, if_neg h, ih (n / b) (Nat.digitChar (n % b) :: acc),
        ih (n / b) [Nat.digitChar (n % b)], List.append_assoc]
      simp

theorem digitChar_toNat {n : Nat} (h : n < 10) : (Nat.digitChar n).toNat = 48 + n := by
  interval_cases n <;> decide

theorem digitChar_isDigit {n : Nat} (h : n < 10) : (Nat.digitChar n).isDigit = true := by
  interval_cases n <;> decide

theorem toDigitsCore_ten_digits :
    ∀ (fuel n : Nat) (acc : List Char), (∀ c ∈ acc, c.isDigit = true) →
      ∀ c ∈ Nat.toDigitsCore 10 fuel n acc, c.isDigit = true := by
  intro fuel
  induction fuel with
  | zero => intro n acc hacc; simpa [Nat.toDigitsCore] using hacc
  | succ f ih =>
    intro n acc hacc c hc
    simp only [Nat.toDigitsCore] at hc
    by_cases h : n / 10 = 0
    · rw [if_pos h] at hc
      rcases List.mem_cons.1 hc with h1 | h1
      · subst h1; exact digitChar_isDigit (Nat.mod_lt _ (by norm_num))
      · exact hacc c h1
    · rw [if_neg h] at hc
      refine ih (n / 10) _ ?_ c hc
      intro x hx
      rcases List.mem_cons.1 hx with h1 | h1
      · subst h1; exact digitChar_isDigit (Nat.mod_lt _ (by norm_num))
      · exact hacc x h1

theorem digitsToNat_append (l : List Char) (c : Char) :
    digitsToNat (l ++ [c]) = 10 * digitsToNat l + (c.toNat - 48) := by
  simp [digitsToNat, List.foldl_append]

theorem toDigitsCore_ten_val :
    ∀ (fuel n : Nat), n < fuel → digitsToNat (Nat.toDigitsCore 10 fuel n []) = n := by
  intro fuel
  induction fuel with
  | zero => intro n h; omega
  | succ f ih =>
    intro n h
    simp only [Nat.toDigitsCore]
    by_cases h0 : n / 10 = 0
    · rw [if_pos h0]
      have hdm := Nat.div_add_mod n 10
      have hm := Nat.mod_lt n (show 0 < 10 by norm_num)
      show digitsToNat [Nat.digitChar (n % 10)] = n
      rw [show digitsToNat [Nat.digitChar (n % 10)] =
        (Nat.digitChar (n % 10)).toNat - 48 from by simp [digitsToNat]]
      rw [digitChar_toNat (by omega)]
      omega
    · rw [if_neg h0, toDigitsCore_eq_append, digitsToNat_append]
      have h1 : 0 < n := by
        rcases Nat.eq_zero_or_pos n with h2 | h2
        · subst h2; simp at h0
        · exact h2
      have hlt : n / 10 < f := by
        have h2 : n / 10 < n := Nat.div_lt_self h1 (by norm_num)
        omega
      have hdm := Nat.div_add_mod n 10
      rw [ih (n / 10) hlt, digitChar_toNat (Nat.mod_lt _ (by norm_num))]
      omega

theorem repr_data (n : Nat) : (Nat.repr n).data = Nat.toDigitsCore 10 (n + 1) n [] := rfl

theorem repr_digits (n : Nat) : ∀ c ∈ (Nat.repr n).data, c.isDigit = true := by
  rw [repr_data]
  exact toDigitsCore_ten_digits (n + 1) n [] (by simp)

theorem repr_inj {m n : Nat} (h : Nat.repr m = Nat.repr n) : m = n := by
  have hm := toDigitsCore_ten_val (m + 1) m (by omega)
  have hn := toDigitsCore_ten_val (n + 1) n (by omega)
  rw [← repr_data] at hm hn
  rw [h] at hm
  omega

theorem sep_digits_cancel :
    ∀ (a b s t : List Char), (∀ c ∈ s, c.isDigit = true) → (∀ c ∈ t, c.isDigit = true) →
      a ++ sepL ++ s = b ++ sepL ++ t → a = b ∧ s = t := by
  intro a
  induction a with
  | nil =>
    intro b s t hs ht heq
    cases b with
    | nil =>
      simp only [List.nil_append] at heq
      exact ⟨rfl, List.append_cancel_left heq⟩
    | cons x b2 =>
      exfalso
      rw [show sepL = '_' :: ['s', 'l', 'o', 't'] from rfl] at heq
      simp only [List.nil_append, List.cons_append, List.cons.injEq] at heq
      have hmem : '_' ∈ ('s' :: 'l' :: 'o' :: 't' :: s) := by
        rw [heq.2]
        simp
      have hds : ('_' : Char) ∈ s := by
        simp only [List.mem_cons] at hmem
        rcases hmem with h | h | h | h | h
        · exact absurd h (by decide)
        · exact absurd h (by decide)
        · exact absurd h (by decide)
        · exact absurd h (by decide)
        · exact h
      exact absurd (hs '_' hds) (by decide)
  | cons x a2 iha =>
    intro b s t hs ht heq
    cases b with
    | nil =>
      exfalso
      rw [show sepL = '_' :: ['s', 'l', 'o', 't'] from rfl] at heq
      simp only [List.nil_append, List.cons_append, List.cons.injEq] at heq
      have hmem : '_' ∈ ('s' :: 'l' :: 'o' :: 't' :: t) := by
        rw [← heq.2]
        simp
      have hdt : ('_' : Char) ∈ t := by
        simp only [List.mem_cons] at hmem
        rcases hmem with h | h | h | h | h
        · exact absurd h (by decide)
        · exact absurd h (by decide)
        · exact absurd h (by decide)
        · exact absurd h (by decide)
        · exact h
      exact absurd (ht '_' hdt) (by decide)
    | cons y b2 =>
      simp only [List.cons_append, List.cons.injEq] at heq
      obtain ⟨hxy, heq2⟩ := heq
      obtain ⟨h1, h2⟩ := iha b2 s t hs ht heq2
      exact ⟨by rw [hxy, h1], h2⟩

theorem slotName_data (n : String) (i : Nat) :
    (slotName n i).data = n.data ++ sepL ++ (Nat.repr (i + 1)).data := by
  show (n ++ "_slot" ++ toString (i + 1)).data = n.data ++ sepL ++ (Nat.repr (i + 1)).data
  rw [String.data_append, String.data_append]
  rfl

theorem slotName_inj {n1 n2 : String} {i1 i2 : Nat}
    (h : slotName n1 i1 = slotName n2 i2) : n1 = n2 ∧ i1 = i2 := by
  have hdata := congrArg String.data h
  rw [slotName_data, slotName_data] at hdata
  obtain ⟨h1, h2⟩ := sep_digits_cancel _ _ _ _ (repr_digits _) (repr_digits _) hdata
  refine ⟨String.ext h1, ?_⟩
  have h3 : Nat.repr (i1 + 1) = Nat.repr (i2 + 1) := String.ext h2
  have := repr_inj h3
  omega

theorem slotName_right_inj (name : String) : Function.Injective (slotName name) := by
  intro i j h
  exact (slotName_inj h).2

/-! ### Solver lemmas: the fold computes the lexicographic optimum -/

theorem lexBetter_iff (a b : List Edge) :
    lexBetter a b = true ↔
      (a.length < b.length ∨ (a.length = b.length ∧ matchWeight a < matchWeight b)) := by
  unfold lexBetter
  simp

theorem lexLE_refl (a : List Edge) : lexLE a a := Or.inr ⟨rfl, le_refl _⟩

theorem lexLE_trans {a b c : List Edge} (h1 : lexLE a b) (h2 : lexLE b c) : lexLE a c := by
  unfold lexLE at h1 h2 ⊢
  omega

theorem lexLE_of_lexBetter {a b : List Edge} (h : lexBetter a b = true) : lexLE a b := by
  have := (lexBetter_iff a b).1 h
  unfold lexLE
  omega

theorem lexLE_of_not_lexBetter {a b : List Edge} (h : ¬ lexBetter a b = true) : lexLE b a := by
  rw [lexBetter_iff] at h
  unfold lexLE
  omega

theorem foldl_pickBetter_le :
    ∀ (l : List (List Edge)) (init : List Edge),
      lexLE init (l.foldl pickBetter init) ∧ ∀ m ∈ l, lexLE m (l.foldl pickBetter init) := by
  intro l
  induction l with
  | nil => intro init; exact ⟨lexLE_refl init, by simp⟩
  | cons x l ih =>
    intro init
    simp only [List.foldl_cons]
    obtain ⟨h1, h2⟩ := ih (pickBetter init x)
    have hinit : lexLE init (pickBetter init x) := by
      by_cases hc : lexBetter init x = true
      · rw [pickBetter, if_pos hc]; exact lexLE_of_lexBetter hc
      · rw [pickBetter, if_neg hc]; exact lexLE_refl init
    have hx : lexLE x (pickBetter init x) := by
      by_cases hc : lexBetter init x = true
      · rw [pickBetter, if_pos hc]; exact lexLE_refl x
      · rw [pickBetter, if_neg hc]; exact lexLE_of_not_lexBetter hc
    refine ⟨lexLE_trans hinit h1, ?_⟩
    intro m hm
    rcases List.mem_cons.1 hm with h | h
    · subst h; exact lexLE_trans hx h1
    · exact h2 m h

theorem foldl_pickBetter_mem :
    ∀ (l : List (List Edge)) (init : List Edge),
      l.foldl pickBetter init = init ∨ l.foldl pickBetter init ∈ l := by
  intro l
  induction l with
  | nil => intro init; exact Or.inl rfl
  | cons x l ih =>
    intro init
    simp only [List.foldl_cons]
    rcases ih (pickBetter init x) with h | h
    · rw [h]
      by_cases hc : lexBetter init x = true
      · rw [pickBetter, if_pos hc]; exact Or.inr (List.mem_cons_self x l)
      · rw [pickBetter, if_neg hc]; exact Or.inl rfl
    · exact Or.inr (List.mem_cons_of_mem x h)

theorem solver_isMatching (G : List Edge) :
    isMatching (run_maximum_cardinality_max_weight G) := by
  unfold run_maximum_cardinality_max_weight
  rcases foldl_pickBetter_mem (G.sublists.filter fun m => decide (isMatching m)) [] with h | h
  · rw [h]
    simp [isMatching]
  · exact of_decide_eq_true (List.mem_filter.1 h).2

theorem solver_sublist (G : List Edge) :
    (run_maximum_cardinality_max_weight G).Sublist G := by
  unfold run_maximum_cardinality_max_weight
  rcases foldl_pickBetter_mem (G.sublists.filter fun m => decide (isMatching m)) [] with h | h
  · rw [h]; exact List.nil_sublist G
  · exact List.mem_sublists.1 (List.mem_of_mem_filter h)

theorem solver_optimal (G m : List Edge) (hm : m.Sublist G) (hmatch : isMatching m) :
    lexLE m (run_maximum_cardinality_max_weight G) := by
  unfold run_maximum_cardinality_max_weight
  refine (foldl_pickBetter_le _ []).2 m ?_
  exact List.mem_filter.2 ⟨List.mem_sublists.2 hm, decide_eq_true hmatch⟩

/-! ### Slot expansion lemmas -/

theorem slotEntries_cons (p : String × Int) (caps : Dict Int) :
    slotEntries (p :: caps) =
      (List.range p.2.toNat).map (fun i => (slotName p.1 i, p.1)) ++ slotEntries caps := by
  simp [slotEntries]

theorem slotPrefEntries_cons (prefs : Dict (Dict Nat)) (p : String × Int) (caps : Dict Int) :
    slotPrefEntries prefs (p :: caps) =
      (List.range p.2.toNat).map (fun i => (slotName p.1 i, Dict.getD prefs p.1 [])) ++
        slotPrefEntries prefs caps := by
  simp [slotPrefEntries]

theorem expand_slots_eq (prefs : Dict (Dict Nat)) (name : String) :
    ∀ (idxs : List Nat) (acc : Dict (Dict Nat) × Dict String),
      idxs.foldl (expand_slot prefs name) acc =
        (idxs.foldl (fun d i => Dict.insert d (slotName name i) (Dict.getD prefs name [])) acc.1,
         idxs.foldl (fun d i => Dict.insert d (slotName name i) name) acc.2) := by
  intro idxs
  induction idxs with
  | nil => intro acc; rfl
  | cons i idxs ih =>
    intro acc
    simp only [List.foldl_cons]
    rw [ih]
    rfl

theorem expand_by_capacity_fold (prefs : Dict (Dict Nat)) :
    ∀ (caps : Dict Int) (acc : Dict (Dict Nat) × Dict String),
      caps.foldl (expand_participant prefs) acc =
        ((slotPrefEntries prefs caps).foldl (fun d q => Dict.insert d q.1 q.2) acc.1,
         (slotEntries caps).foldl (fun d q => Dict.insert d q.1 q.2) acc.2) := by
  intro caps
  induction caps with
  | nil => intro acc; simp [slotPrefEntries, slotEntries]
  | cons p caps ih =>
    intro acc
    simp only [List.foldl_cons]
    rw [ih (expand_participant prefs acc p), slotPrefEntries_cons, slotEntries_cons,
      List.foldl_append, List.foldl_append, List.foldl_map, List.foldl_map,
      expand_participant, expand_slots_eq]

theorem foldl_insert_fresh {α : Type} :
    ∀ (entries : List (String × α)) (d : Dict α),
      (∀ k ∈ entries.map (fun q => q.1), k ∉ Dict.keys d) →
      (entries.map (fun q => q.1)).Nodup →
      entries.foldl (fun d q => Dict.insert d q.1 q.2) d = d ++ entries := by
  intro entries
  induction entries with
  | nil => intro d _ _; simp
  | cons q entries ih =>
    intro d hfresh hnodup
    simp only [List.map_cons, List.nodup_cons] at hnodup
    have hq : q.1 ∉ Dict.keys d := hfresh q.1 (by simp)
    have hfresh2 : ∀ k ∈ entries.map (fun q => q.1), k ∉ Dict.keys (d ++ [(q.1, q.2)]) := by
      intro k hk hmem
      rw [Dict.keys, List.map_append] at hmem
      rcases List.mem_append.1 hmem with h | h
      · exact hfresh k (List.mem_cons_of_mem _ hk) h
      · simp only [List.map_cons, List.map_nil, List.mem_singleton] at h
        subst h
        exact hnodup.1 hk
    simp only [List.foldl_cons]
    rw [Dict.insert_of_not_mem d q.1 q.2 hq, ih (d ++ [(q.1, q.2)]) hfresh2 hnodup.2,
      List.append_assoc]
    simp

theorem slotNames_nodup (caps : Dict Int) (h : (Dict.keys caps).Nodup) :
    (slotNames caps).Nodup := by
  rw [slotNames, List.nodup_flatMap]
  constructor
  · intro p hp
    exact List.Nodup.map (slotName_right_inj p.1) (List.nodup_range p.2.toNat)
  · have hp : caps.Pairwise (fun a b => a.1 ≠ b.1) := by
      rw [Dict.keys] at h
      exact List.pairwise_map.1 h
    refine hp.imp ?_
    intro a b hab x hxa hxb
    obtain ⟨i, hi, hxi⟩ := List.mem_map.1 hxa
    obtain ⟨j, hj, hxj⟩ := List.mem_map.1 hxb
    exact hab ((slotName_inj (hxi.trans hxj.symm)).1)

theorem keys_slotEntries (caps : Dict Int) :
    Dict.keys (slotEntries caps) = slotNames caps := by
  rw [Dict.keys, slotEntries, slotNames, List.map_flatMap]
  refine congrArg _ ?_
  funext p
  simp [List.map_map, Function.comp]

theorem keys_slotPrefEntries (prefs : Dict (Dict Nat)) (caps : Dict Int) :
    Dict.keys (slotPrefEntries prefs caps) = slotNames caps := by
  rw [Dict.keys, slotPrefEntries, slotNames, List.map_flatMap]
  refine congrArg _ ?_
  funext p
  simp [List.map_map, Function.comp]

theorem expand_by_capacity_eq (prefs : Dict (Dict Nat)) (caps : Dict Int)
    (h : (slotNames caps).Nodup) :
    expand_by_capacity prefs caps = (slotPrefEntries prefs caps, slotEntries caps) := by
  rw [expand_by_capacity, expand_by_capacity_fold]
  have h1 : (slotPrefEntries prefs caps).map (fun q => q.1) = slotNames caps :=
    keys_slotPrefEntries prefs caps
  have h2 : (slotEntries caps).map (fun q => q.1) = slotNames caps :=
    keys_slotEntries caps
  rw [foldl_insert_fresh _ [] (by simp [Dict.keys]) (by rw [h1]; exact h),
    foldl_insert_fresh _ [] (by simp [Dict.keys]) (by rw [h2]; exact h)]
  simp

theorem mem_slotEntries {caps : Dict Int} {s par : String} :
    (s, par) ∈ slotEntries caps ↔
      ∃ c, (par, c) ∈ caps ∧ ∃ i, i < c.toNat ∧ s = slotName par i := by
  constructor
  · intro hx
    obtain ⟨p, hp, hx2⟩ := List.mem_flatMap.1 hx
    obtain ⟨i, hi, hxi⟩ := List.mem_map.1 hx2
    obtain ⟨pn, pc⟩ := p
    simp only [Prod.mk.injEq] at hxi
    obtain ⟨h1, h2⟩ := hxi
    subst h2
    exact ⟨pc, hp, i, List.mem_range.1 hi, h1.symm⟩
  · rintro ⟨c, hc, i, hi, hs⟩
    exact List.mem_flatMap.2
      ⟨(par, c), hc, List.mem_map.2 ⟨i, List.mem_range.2 hi, by rw [hs]⟩⟩

theorem mem_slotPrefEntries {prefs : Dict (Dict Nat)} {caps : Dict Int} {s : String}
    {v : Dict Nat} :
    (s, v) ∈ slotPrefEntries prefs caps ↔
      ∃ par c, (par, c) ∈ caps ∧ v = Dict.getD prefs par [] ∧
        ∃ i, i < c.toNat ∧ s = slotName par i := by
  constructor
  · intro hx
    obtain ⟨p, hp, hx2⟩ := List.mem_flatMap.1 hx
    obtain ⟨i, hi, hxi⟩ := List.mem_map.1 hx2
    obtain ⟨pn, pc⟩ := p
    simp only [Prod.mk.injEq] at hxi
    exact ⟨pn, pc, hp, hxi.2.symm, i, List.mem_range.1 hi, hxi.1.symm⟩
  · rintro ⟨par, c, hc, hv, i, hi, hs⟩
    exact List.mem_flatMap.2
      ⟨(par, c), hc, List.mem_map.2 ⟨i, List.mem_range.2 hi, by rw [hs, hv]⟩⟩

theorem slotEntries_filter_not_mem (name : String) :
    ∀ (caps : Dict Int), name ∉ Dict.keys caps →
      (slotEntries caps).filter (fun q => q.2 == name) = [] := by
  intro caps
  induction caps with
  | nil => intro h; rfl
  | cons p caps ih =>
    intro h
    rw [Dict.keys, List.map_cons] at h
    simp only [List.mem_cons] at h
    push_neg at h
    rw [slotEntries_cons, List.filter_append, ih h.2, List.append_nil,
      List.filter_eq_nil_iff]
    intro x hx
    obtain ⟨i, hi, hxi⟩ := List.mem_map.1 hx
    rw [← hxi]
    simp [Ne.symm h.1]

theorem slotEntries_count (name : String) (c : Int) :
    ∀ (caps : Dict Int), (Dict.keys caps).Nodup → (name, c) ∈ caps →
      ((slotEntries caps).filter (fun q => q.2 == name)).length = c.toNat := by
  intro caps
  induction caps with
  | nil => intro _ hmem; simp at hmem
  | cons p caps ih =>
    intro hnodup hmem
    rw [Dict.keys, List.map_cons] at hnodup
    simp only [List.nodup_cons] at hnodup
    rw [slotEntries_cons, List.filter_append, List.length_append]
    rcases List.mem_cons.1 hmem with h | h
    · rw [← h] at hnodup
      rw [← h]
      have htail : (slotEntries caps).filter (fun q => q.2 == name) = [] :=
        slotEntries_filter_not_mem name caps hnodup.1
      have hgroup : ((List.range c.toNat).map
          (fun i => (slotName name i, name))).filter (fun q => q.2 == name) =
          (List.range c.toNat).map (fun i => (slotName name i, name)) := by
        rw [List.filter_eq_self]
        intro x hx
        obtain ⟨i, hi, hxi⟩ := List.mem_map.1 hx
        rw [← hxi]
        simp
      rw [htail, hgroup]
      simp
    · have hname : name ∈ Dict.keys caps := List.mem_map.2 ⟨(name, c), h, rfl⟩
      have hne : p.1 ≠ name := fun he => hnodup.1 (he ▸ hname)
      have hgroup : ((List.range p.2.toNat).map
          (fun i => (slotName p.1 i, p.1))).filter (fun q => q.2 == name) = [] := by
        rw [List.filter_eq_nil_iff]
        intro x hx
        obtain ⟨i, hi, hxi⟩ := List.mem_map.1 hx
        rw [← hxi]
        simp [hne]
      rw [hgroup, ih hnodup.2 h]
      simp

/-! ### Graph builder lemmas -/

theorem mem_slotNames {caps : Dict Int} {s : String} :
    s ∈ slotNames caps ↔
      ∃ par c, (par, c) ∈ caps ∧ ∃ i, i < c.toNat ∧ s = slotName par i := by
  constructor
  · intro hx
    obtain ⟨p, hp, hx2⟩ := List.mem_flatMap.1 hx
    obtain ⟨i, hi, hxi⟩ := List.mem_map.1 hx2
    obtain ⟨pn, pc⟩ := p
    exact ⟨pn, pc, hp, i, List.mem_range.1 hi, hxi.symm⟩
  · rintro ⟨par, c, hc, i, hi, hs⟩
    exact List.mem_flatMap.2 ⟨(par, c), hc, List.mem_map.2 ⟨i, List.mem_range.2 hi, hs.symm⟩⟩

theorem mem_build_iff {emp : Dict (Dict Nat)} {s2m : Dict String}
    {efp : Dict (Dict Nat)} {s2f : Dict String} {bonus : Nat} {e : Edge} :
    e ∈ build_bipartite_graph emp s2m efp s2f bonus ↔
      e.ms ∈ Dict.keys emp ∧ e.fs ∈ Dict.keys efp ∧
        ((0 < Dict.getD ((Dict.get? emp e.ms).getD []) ((Dict.get? s2f e.fs).getD "") 0 ∨
          0 < Dict.getD ((Dict.get? efp e.fs).getD []) ((Dict.get? s2m e.ms).getD "") 0) ∧
        e.w = Dict.getD ((Dict.get? emp e.ms).getD []) ((Dict.get? s2f e.fs).getD "") 0 +
              Dict.getD ((Dict.get? efp e.fs).getD []) ((Dict.get? s2m e.ms).getD "") 0 +
              (if 0 < Dict.getD ((Dict.get? emp e.ms).getD []) ((Dict.get? s2f e.fs).getD "") 0 ∧
                  0 < Dict.getD ((Dict.get? efp e.fs).getD []) ((Dict.get? s2m e.ms).getD "") 0
               then bonus else 0)) := by
  obtain ⟨ems, efs, ew⟩ := e
  simp only [build_bipartite_graph, List.mem_flatMap, List.mem_filterMap]
  constructor
  · rintro ⟨ms, hms, fs, hfs, hsome⟩
    by_cases h1 : 0 < Dict.getD ((Dict.get? emp ms).getD []) ((Dict.get? s2f fs).getD "") 0 <;>
      by_cases h2 : 0 < Dict.getD ((Dict.get? efp fs).getD []) ((Dict.get? s2m ms).getD "") 0
    · rw [if_pos (by simp [h1, h2])] at hsome
      injection hsome with hsome2
      injection hsome2 with hma hfa hwa
      subst hma; subst hfa; subst hwa
      exact ⟨hms, hfs, Or.inl h1, by simp [h1, h2]⟩
    · rw [if_pos (by simp [h1, h2])] at hsome
      injection hsome with hsome2
      injection hsome2 with hma hfa hwa
      subst hma; subst hfa; subst hwa
      exact ⟨hms, hfs, Or.inl h1, by simp [h1, h2]⟩
    · rw [if_pos (by simp [h1, h2])] at hsome
      injection hsome with hsome2
      injection hsome2 with hma hfa hwa
      subst hma; subst hfa; subst hwa
      exact ⟨hms, hfs, Or.inr h2, by simp [h1, h2]⟩
    · rw [if_neg (by simp [h1, h2])] at hsome
      exact absurd hsome (by simp)
  · rintro ⟨hms, hfs, hcond, hw⟩
    refine ⟨ems, hms, efs, hfs, ?_⟩
    have hb : (decide (Dict.getD ((Dict.get? emp ems).getD [])
          ((Dict.get? s2f efs).getD "") 0 > 0) ||
        decide (Dict.getD ((Dict.get? efp efs).getD [])
          ((Dict.get? s2m ems).getD "") 0 > 0)) = true := by
      rcases hcond with h | h <;> simp [h]
    rw [if_pos hb]
    have hval : Dict.getD ((Dict.get? emp ems).getD []) ((Dict.get? s2f efs).getD "") 0 +
        Dict.getD ((Dict.get? efp efs).getD []) ((Dict.get? s2m ems).getD "") 0 +
        (if (decide (Dict.getD ((Dict.get? emp ems).getD [])
              ((Dict.get? s2f efs).getD "") 0 > 0) &&
            decide (Dict.getD ((Dict.get? efp efs).getD [])
              ((Dict.get? s2m ems).getD "") 0 > 0)) = true
         then bonus else 0) = ew := by
      rw [hw]
      by_cases h1 : 0 < Dict.getD ((Dict.get? emp ems).getD [])
          ((Dict.get? s2f efs).getD "") 0 <;>
        by_cases h2 : 0 < Dict.getD ((Dict.get? efp efs).getD [])
            ((Dict.get? s2m ems).getD "") 0 <;>
        simp [h1, h2]
    rw [hval]

theorem build_weight_pos {emp : Dict (Dict Nat)} {s2m : Dict String}
    {efp : Dict (Dict Nat)} {s2f : Dict String} {bonus : Nat} :
    ∀ e ∈ build_bipartite_graph emp s2m efp s2f bonus, 0 < e.w := by
  intro e he
  obtain ⟨_, _, hcond, hw⟩ := mem_build_iff.1 he
  rcases hcond with h | h <;> (rw [hw]; omega)

theorem expand_get? (prefs : Dict (Dict Nat)) (caps : Dict Int)
    (h : (Dict.keys caps).Nodup) {par : String} {c : Int} {i : Nat}
    (hmem : (par, c) ∈ caps) (hi : i < c.toNat) :
    Dict.get? (expand_by_capacity prefs caps).1 (slotName par i) =
        some (Dict.getD prefs par []) ∧
      Dict.get? (expand_by_capacity prefs caps).2 (slotName par i) = some par := by
  have hn := slotNames_nodup caps h
  rw [expand_by_capacity_eq prefs caps hn]
  refine ⟨Dict.get?_eq_some_of_mem ?_ (mem_slotPrefEntries.2 ⟨par, c, hmem, rfl, i, hi, rfl⟩),
    Dict.get?_eq_some_of_mem ?_ (mem_slotEntries.2 ⟨c, hmem, i, hi, rfl⟩)⟩
  · rw [keys_slotPrefEntries]; exact hn
  · rw [keys_slotEntries]; exact hn

theorem build_weight_eq_synergy {prefs_m prefs_f : Dict (Dict Nat)}
    {caps_m caps_f : Dict Int} {bonus : Nat}
    (hm : (Dict.keys caps_m).Nodup) (hf : (Dict.keys caps_f).Nodup) :
    ∀ e ∈ build_bipartite_graph (expand_by_capacity prefs_m caps_m).1
        (expand_by_capacity prefs_m caps_m).2
        (expand_by_capacity prefs_f caps_f).1
        (expand_by_capacity prefs_f caps_f).2 bonus,
      e.w = synergy prefs_m prefs_f bonus
        (parentPair (expand_by_capacity prefs_m caps_m).2
          (expand_by_capacity prefs_f caps_f).2 e).1
        (parentPair (expand_by_capacity prefs_m caps_m).2
          (expand_by_capacity prefs_f caps_f).2 e).2 := by
  intro e he
  obtain ⟨hms, hfs, _, hw⟩ := mem_build_iff.1 he
  rw [expand_by_capacity_eq prefs_m caps_m (slotNames_nodup caps_m hm),
    keys_slotPrefEntries] at hms
  rw [expand_by_capacity_eq prefs_f caps_f (slotNames_nodup caps_f hf),
    keys_slotPrefEntries] at hfs
  obtain ⟨mpar, mc, hmc, mi, hmi, hmsn⟩ := mem_slotNames.1 hms
  obtain ⟨fpar, fc, hfc, fi, hfi, hfsn⟩ := mem_slotNames.1 hfs
  obtain ⟨hg1m, hg2m⟩ := expand_get? prefs_m caps_m hm hmc hmi
  obtain ⟨hg1f, hg2f⟩ := expand_get? prefs_f caps_f hf hfc hfi
  rw [← hmsn] at hg1m hg2m
  rw [← hfsn] at hg1f hg2f
  rw [hw, parentPair, hg2m, hg2f, synergy, hg1m, hg1f]
  simp only [Option.getD_some]
  by_cases h1 : 0 < Dict.getD (Dict.getD prefs_m mpar []) fpar 0 <;>
    by_cases h2 : 0 < Dict.getD (Dict.getD prefs_f fpar []) mpar 0 <;>
    simp [h1, h2]

/-! ### Aggregation and deduplication lemmas -/

theorem matchWeight_cons (e : Edge) (l : List Edge) :
    matchWeight (e :: l) = e.w + matchWeight l := by
  simp [matchWeight]

theorem aggregate_go (emp efp : Dict (Dict Nat)) (s2m s2f : Dict String) :
    ∀ (matched : List Edge) (u : List (String × String)) (ps : List PairRow) (t : Nat),
      matched.foldl (aggStep emp efp s2m s2f) (u, ps, t) =
        (u ++ (dedupByKey s2m s2f u matched).map (parentPair s2m s2f),
         ps ++ (dedupByKey s2m s2f u matched).map (rowOf emp efp s2m s2f),
         t + matchWeight (dedupByKey s2m s2f u matched)) := by
  intro matched
  induction matched with
  | nil => intro u ps t; simp [dedupByKey, matchWeight]
  | cons e es ih =>
    intro u ps t
    simp only [List.foldl_cons]
    by_cases hk : parentPair s2m s2f e ∈ u
    · rw [show aggStep emp efp s2m s2f (u, ps, t) e = (u, ps, t) from by
        rw [aggStep]; simp [hk]]
      rw [ih, dedupByKey]
      simp [hk]
    · rw [show aggStep emp efp s2m s2f (u, ps, t) e =
          (u ++ [parentPair s2m s2f e], ps ++ [rowOf emp efp s2m s2f e], t + e.w) from by
        rw [aggStep]; simp [hk]]
      rw [ih, dedupByKey]
      simp [hk, matchWeight_cons, List.append_assoc, Nat.add_assoc]

theorem aggregate_eq (emp efp : Dict (Dict Nat)) (s2m s2f : Dict String)
    (matched : List Edge) :
    aggregate emp efp s2m s2f matched =
      ((dedupByKey s2m s2f [] matched).map (parentPair s2m s2f),
       (dedupByKey s2m s2f [] matched).map (rowOf emp efp s2m s2f),
       matchWeight (dedupByKey s2m s2f [] matched)) := by
  rw [aggregate, aggregate_go]
  simp

theorem dedup_sublist (s2m s2f : Dict String) :
    ∀ (es : List Edge) (seen : List (String × String)),
      (dedupByKey s2m s2f seen es).Sublist es := by
  intro es
  induction es with
  | nil => intro seen; simp [dedupByKey]
  | cons e es ih =>
    intro seen
    rw [dedupByKey]
    by_cases hk : parentPair s2m s2f e ∈ seen
    · simp only [if_pos hk]
      exact (ih seen).trans (List.sublist_cons_self e es)
    · simp only [if_neg hk]
      exact (ih (seen ++ [parentPair s2m s2f e])).cons₂ e

theorem dedup_countP_le (s2m s2f : Dict String) (p : String × String) :
    ∀ (es : List Edge) (seen : List (String × String)),
      (dedupByKey s2m s2f seen es).countP (fun e => parentPair s2m s2f e == p) ≤
        (if p ∈ seen then 0 else 1) := by
  intro es
  induction es with
  | nil => intro seen; simp [dedupByKey]
  | cons e es ih =>
    intro seen
    rw [dedupByKey]
    by_cases hk : parentPair s2m s2f e ∈ seen
    · simp only [if_pos hk]
      exact ih seen
    · simp only [if_neg hk]
      rw [List.countP_cons]
      by_cases hp : parentPair s2m s2f e = p
      · have h1 := ih (seen ++ [parentPair s2m s2f e])
        rw [if_pos (by simp [hp])] at h1
        have hpseen : p ∉ seen := by rw [← hp]; exact hk
        rw [if_neg hpseen, if_pos (by simp [hp] : (parentPair s2m s2f e == p) = true)]
        omega
      · have h1 := ih (seen ++ [parentPair s2m s2f e])
        have hif : (if p ∈ seen ++ [parentPair s2m s2f e] then 0 else 1) =
            (if p ∈ seen then 0 else 1) := by
          have hiff : (p ∈ seen ++ [parentPair s2m s2f e]) ↔ p ∈ seen := by
            simp only [List.mem_append, List.mem_singleton]
            constructor
            · rintro (h | h)
              · exact h
              · exact absurd h.symm hp
            · exact Or.inl
          simp [hiff]
        rw [hif] at h1
        rw [if_neg (by simp [hp] : ¬ ((parentPair s2m s2f e == p) = true))]
        omega

theorem dedup_mem_of_find? (s2m s2f : Dict String) (p : String × String) :
    ∀ (es : List Edge) (seen : List (String × String)) (e : Edge), p ∉ seen →
      es.find? (fun x => parentPair s2m s2f x == p) = some e →
      e ∈ dedupByKey s2m s2f seen es := by
  intro es
  induction es with
  | nil => intro seen e _ hf; simp at hf
  | cons x es ih =>
    intro seen e hp hf
    rw [List.find?_cons] at hf
    rw [dedupByKey]
    by_cases hx : (parentPair s2m s2f x == p) = true
    · rw [hx] at hf
      simp only [] at hf
      injection hf with hf2
      subst hf2
      have hxp : parentPair s2m s2f x = p := by simpa using hx
      have hxseen : parentPair s2m s2f x ∉ seen := by rw [hxp]; exact hp
      rw [if_neg hxseen]
      exact List.mem_cons_self _ _
    · have hxf : (parentPair s2m s2f x == p) = false := by simpa using hx
      rw [hxf] at hf
      simp only [] at hf
      have hxp : parentPair s2m s2f x ≠ p := by simpa using hx
      by_cases hseen : parentPair s2m s2f x ∈ seen
      · rw [if_pos hseen]
        exact ih seen e hp hf
      · rw [if_neg hseen]
        refine List.mem_cons_of_mem x (ih (seen ++ [parentPair s2m s2f x]) e ?_ hf)
        intro hmem
        rcases List.mem_append.1 hmem with h | h
        · exact hp h
        · simp only [List.mem_singleton] at h
          exact hxp h.symm

/-! ### Loader and counter lemmas -/

theorem load_mentor_fold_nodup :
    ∀ (rows : List (List String)) (acc : Dict (Dict Nat) × Dict Int),
      (Dict.keys acc.1).Nodup → (Dict.keys acc.2).Nodup →
      (Dict.keys (rows.foldl load_mentor_row acc).1).Nodup ∧
        (Dict.keys (rows.foldl load_mentor_row acc).2).Nodup := by
  intro rows
  induction rows with
  | nil => intro acc h1 h2; exact ⟨h1, h2⟩
  | cons row rows ih =>
    intro acc h1 h2
    simp only [List.foldl_cons]
    have hs1 : (Dict.keys (load_mentor_row acc row).1).Nodup := by
      rw [load_mentor_row]
      by_cases hr : row.isEmpty
      · rw [if_pos hr]; exact h1
      · rw [if_neg hr]; exact Dict.keys_insert_nodup _ _ _ h1
    have hs2 : (Dict.keys (load_mentor_row acc row).2).Nodup := by
      rw [load_mentor_row]
      by_cases hr : row.isEmpty
      · rw [if_pos hr]; exact h2
      · rw [if_neg hr]; exact Dict.keys_insert_nodup _ _ _ h2
    exact ih _ hs1 hs2

theorem load_mentor_data_keys_nodup (rows : List (List String)) :
    (Dict.keys (load_mentor_data rows).1).Nodup ∧
      (Dict.keys (load_mentor_data rows).2).Nodup :=
  load_mentor_fold_nodup rows ([], []) (by simp [Dict.keys]) (by simp [Dict.keys])

theorem load_founder_fold_nodup :
    ∀ (rows : List (List String)) (acc : Dict (Dict Nat)),
      (Dict.keys acc).Nodup → (Dict.keys (rows.foldl load_founder_row acc)).Nodup := by
  intro rows
  induction rows with
  | nil => intro acc h; exact h
  | cons row rows ih =>
    intro acc h
    simp only [List.foldl_cons]
    refine ih _ ?_
    rw [load_founder_row]
    by_cases hr : row.isEmpty
    · rw [if_pos hr]; exact h
    · rw [if_neg hr]; exact Dict.keys_insert_nodup _ _ _ h

theorem load_founder_data_keys_nodup (rows : List (List String)) :
    (Dict.keys (load_founder_data rows)).Nodup :=
  load_founder_fold_nodup rows [] (by simp [Dict.keys])

theorem keys_caps_const (d : Dict (Dict Nat)) :
    Dict.keys (d.map (fun p => (p.1, (2 : Int)))) = Dict.keys d := by
  simp [Dict.keys, List.map_map, Function.comp]

theorem mem_caps_const {d : Dict (Dict Nat)} {par : String} {c : Int} :
    (par, c) ∈ d.map (fun p => (p.1, (2 : Int))) ↔ par ∈ Dict.keys d ∧ c = 2 := by
  constructor
  · intro h
    obtain ⟨q, hq, hqe⟩ := List.mem_map.1 h
    simp only [Prod.mk.injEq] at hqe
    exact ⟨List.mem_map.2 ⟨q, hq, hqe.1⟩, hqe.2.symm⟩
  · rintro ⟨hpar, rfl⟩
    obtain ⟨q, hq, hq1⟩ := List.mem_map.1 hpar
    exact List.mem_map.2 ⟨q, hq, by rw [hq1]⟩

theorem foldl_bumpStep_split :
    ∀ (l : List (String × String)) (a b : Dict Nat),
      l.foldl bumpStep (a, b) =
        (l.foldl (fun d q => bump d q.1) a, l.foldl (fun d q => bump d q.2) b) := by
  intro l
  induction l with
  | nil => intro a b; rfl
  | cons q l ih =>
    intro a b
    simp only [List.foldl_cons]
    exact ih (bump a q.1) (bump b q.2)

theorem foldl_bump_get? (f : (String × String) → String) :
    ∀ (l : List (String × String)) (d : Dict Nat) (k : String),
      Dict.get? (l.foldl (fun cs q => bump cs (f q)) d) k =
        match Dict.get? d k with
        | some c => some (c + l.countP (fun q => f q == k))
        | none =>
          if l.countP (fun q => f q == k) = 0 then none
          else some (l.countP (fun q => f q == k)) := by
  intro l
  induction l with
  | nil => intro d k; cases h : Dict.get? d k <;> simp [h]
  | cons q l ih =>
    intro d k
    simp only [List.foldl_cons]
    rw [ih (bump d (f q)) k, List.countP_cons]
    by_cases hq : (f q == k) = true
    · have hqk : f q = k := by simpa using hq
      subst hqk
      rw [show Dict.get? (bump d (f q)) (f q) = some (Dict.getD d (f q) 0 + 1) from
        Dict.get?_insert_self _ _ _]
      have hc : (if (f q == f q) = true then 1 else 0) = 1 := by simp
      rw [hc]
      cases hd : Dict.get? d (f q) with
      | none =>
        simp only [hd, Dict.getD, Option.getD_none]
        rw [if_neg (by omega : ¬ (l.countP (fun x => f x == f q) + 1 = 0))]
        simp only [Option.some.injEq]
        omega
      | some c =>
        simp only [hd, Dict.getD, Option.getD_some, Option.some.injEq]
        omega
    · have hqk : f q ≠ k := by simpa using hq
      rw [show Dict.get? (bump d (f q)) k = Dict.get? d k from
        Dict.get?_insert_ne _ _ _ _ (Ne.symm hqk)]
      simp only [hq, if_false]
      cases hd : Dict.get? d k <;> simp [hd]

theorem foldl_bump_keys_nodup (f : (String × String) → String) :
    ∀ (l : List (String × String)) (d : Dict Nat),
      (Dict.keys d).Nodup →
      (Dict.keys (l.foldl (fun cs q => bump cs (f q)) d)).Nodup := by
  intro l
  induction l with
  | nil => intro d h; exact h
  | cons q l ih =>
    intro d h
    simp only [List.foldl_cons]
    exact ih _ (Dict.keys_insert_nodup _ _ _ h)

/-! ### Preference parsing lemmas -/

theorem parse_fold_get? (t : String) (ht : t ≠ "") :
    ∀ (l : List (Nat × String)) (d : Dict Nat),
      Dict.get? (l.foldl parse_pick d) t =
        match l.reverse.find? (fun ip => strip ip.2 == t) with
        | some ip => some (rank_to_points ip.1)
        | none => Dict.get? d t := by
  intro l
  induction l with
  | nil => intro d; simp
  | cons ip l ih =>
    intro d
    simp only [List.foldl_cons, List.reverse_cons]
    rw [ih (parse_pick d ip), List.find?_append]
    cases hfind : l.reverse.find? (fun x => strip x.2 == t) with
    | some x => simp [Option.or]
    | none =>
      simp only [Option.none_or]
      rw [parse_pick]
      by_cases hp : (strip ip.2 == t) = true
      · have hpt : strip ip.2 = t := by simpa using hp
        rw [if_pos (by rw [hpt]; exact ht)]
        rw [hpt, Dict.get?_insert_self]
        simp [List.find?_singleton, hp]
      · have hpt : strip ip.2 ≠ t := by simpa using hp
        have hlhs : Dict.get? (if strip ip.2 ≠ "" then
            Dict.insert d (strip ip.2) (rank_to_points ip.1) else d) t = Dict.get? d t := by
          by_cases he : strip ip.2 = ""
          · simp [he]
          · rw [if_pos he]
            exact Dict.get?_insert_ne _ _ _ _ (Ne.symm hpt)
        rw [hlhs]
        simp [List.find?_singleton, hp]

theorem parse_prefs_get? (picks : List String) (t : String) (ht : t ≠ "") :
    Dict.get? (parse_prefs picks) t =
      match picks.enum.reverse.find? (fun ip => strip ip.2 == t) with
      | some ip => some (rank_to_points ip.1)
      | none => none := by
  rw [parse_prefs, parse_fold_get? t ht]
  cases h : picks.enum.reverse.find? (fun ip => strip ip.2 == t) <;> simp [h, Dict.get?]

theorem find?_reverse_last {α : Type} (l1 l2 : List α) (x : α) (p : α → Bool)
    (hx : p x = true) (h2 : ∀ y ∈ l2, p y = false) :
    ((l1 ++ x :: l2).reverse).find? p = some x := by
  rw [List.reverse_append, List.reverse_cons, List.find?_append, List.find?_append]
  have hnone : l2.reverse.find? p = none :=
    List.find?_eq_none.2 (fun y hy => by simp [h2 y (List.mem_reverse.1 hy)])
  rw [hnone]
  simp [List.find?_singleton, hx]

/-! ### Capacity-bound support lemmas -/

theorem map_ms_sublist_nodes :
    ∀ (m : List Edge), ((m.map (fun e => e.ms)).Sublist (m.flatMap edgeNodes)) := by
  intro m
  induction m with
  | nil => simp
  | cons e es ih =>
    simp only [List.map_cons, List.flatMap_cons, edgeNodes]
    exact ((ih.trans (List.sublist_cons_self e.fs _)).cons₂ e.ms)

theorem map_fs_sublist_nodes :
    ∀ (m : List Edge), ((m.map (fun e => e.fs)).Sublist (m.flatMap edgeNodes)) := by
  intro m
  induction m with
  | nil => simp
  | cons e es ih =>
    simp only [List.map_cons, List.flatMap_cons, edgeNodes]
    exact (ih.cons₂ e.fs).cons e.ms

theorem isMatching_ms_nodup {m : List Edge} (h : isMatching m) :
    (m.map (fun e => e.ms)).Nodup :=
  List.Nodup.sublist (map_ms_sublist_nodes m) h

theorem isMatching_fs_nodup {m : List Edge} (h : isMatching m) :
    (m.map (fun e => e.fs)).Nodup :=
  List.Nodup.sublist (map_fs_sublist_nodes m) h

theorem count_parent_le_filter (s2 : Dict String) (name : String) (m : List Edge)
    (proj : Edge → String)
    (hnodup : (m.map proj).Nodup)
    (hin : ∀ e ∈ m, ((Dict.get? s2 (proj e)).getD "") = name → (proj e, name) ∈ s2) :
    m.countP (fun e => (Dict.get? s2 (proj e)).getD "" == name) ≤
      (s2.filter (fun q => q.2 == name)).length := by
  rw [List.countP_eq_length_filter]
  set mf := m.filter (fun e => (Dict.get? s2 (proj e)).getD "" == name) with hmf
  have hsub : mf.Sublist m := List.filter_sublist m
  have hnodupf : (mf.map proj).Nodup := List.Nodup.sublist (hsub.map proj) hnodup
  have hnoduppair : ((mf.map proj).map (fun s => (s, name))).Nodup :=
    List.Nodup.map (fun a b hab => congrArg Prod.fst hab) hnodupf
  have hsubset : ((mf.map proj).map (fun s => (s, name))) ⊆
      s2.filter (fun q => q.2 == name) := by
    intro x hx
    obtain ⟨s, hs, hsx⟩ := List.mem_map.1 hx
    obtain ⟨e, he, hes⟩ := List.mem_map.1 hs
    have hepred := List.of_mem_filter he
    have hename : (Dict.get? s2 (proj e)).getD "" = name := by simpa using hepred
    have hmem2 : (proj e, name) ∈ s2 := hin e (hsub.subset he) hename
    rw [← hsx, ← hes]
    exact List.mem_filter.2 ⟨hmem2, by simp⟩
  have hlen := (List.subperm_of_subset hnoduppair hsubset).length_le
  simpa using hlen

theorem filter_eq_singleton {α : Type} {l : List α} {q : α → Bool} {x : α}
    (hc : l.countP q ≤ 1) (hx : x ∈ l) (hqx : q x = true) : l.filter q = [x] := by
  have hxf : x ∈ l.filter q := List.mem_filter.2 ⟨hx, hqx⟩
  rw [List.countP_eq_length_filter] at hc
  cases hf : l.filter q with
  | nil => rw [hf] at hxf; simp at hxf
  | cons y ys =>
    rw [hf] at hxf hc
    simp only [List.length_cons] at hc
    have hys : ys = [] := List.eq_nil_of_length_eq_zero (by omega)
    subst hys
    simp only [List.mem_singleton] at hxf
    rw [hxf]

theorem expand_keys_eq (prefs : Dict (Dict Nat)) (caps : Dict Int)
    (h : (Dict.keys caps).Nodup) :
    Dict.keys (expand_by_capacity prefs caps).1 = slotNames caps ∧
      Dict.keys (expand_by_capacity prefs caps).2 = slotNames caps := by
  rw [expand_by_capacity_eq prefs caps (slotNames_nodup caps h)]
  exact ⟨keys_slotPrefEntries prefs caps, keys_slotEntries caps⟩

theorem pairs_count_le_general
    (prefs_m prefs_f : Dict (Dict Nat)) (caps_m caps_f : Dict Int)
    (hm : (Dict.keys caps_m).Nodup) (hf : (Dict.keys caps_f).Nodup)
    (bonus : Nat) (name : String) :
    (((dedupByKey (expand_by_capacity prefs_m caps_m).2 (expand_by_capacity prefs_f caps_f).2 []
        (run_maximum_cardinality_max_weight (build_bipartite_graph
          (expand_by_capacity prefs_m caps_m).1 (expand_by_capacity prefs_m caps_m).2
          (expand_by_capacity prefs_f caps_f).1 (expand_by_capacity prefs_f caps_f).2 bonus))).map
        (rowOf (expand_by_capacity prefs_m caps_m).1 (expand_by_capacity prefs_f caps_f).1
          (expand_by_capacity prefs_m caps_m).2 (expand_by_capacity prefs_f caps_f).2)).countP
        (fun r => r.mentor == name) ≤
      (((expand_by_capacity prefs_m caps_m).2).filter (fun q => q.2 == name)).length) ∧
    (((dedupByKey (expand_by_capacity prefs_m caps_m).2 (expand_by_capacity prefs_f caps_f).2 []
        (run_maximum_cardinality_max_weight (build_bipartite_graph
          (expand_by_capacity prefs_m caps_m).1 (expand_by_capacity prefs_m caps_m).2
          (expand_by_capacity prefs_f caps_f).1 (expand_by_capacity prefs_f caps_f).2 bonus))).map
        (rowOf (expand_by_capacity prefs_m caps_m).1 (expand_by_capacity prefs_f caps_f).1
          (expand_by_capacity prefs_m caps_m).2 (expand_by_capacity prefs_f caps_f).2)).countP
        (fun r => r.founder == name) ≤
      (((expand_by_capacity prefs_f caps_f).2).filter (fun q => q.2 == name)).length) := by
  have hGsub := solver_sublist (build_bipartite_graph
    (expand_by_capacity prefs_m caps_m).1 (expand_by_capacity prefs_m caps_m).2
    (expand_by_capacity prefs_f caps_f).1 (expand_by_capacity prefs_f caps_f).2 bonus)
  have hGmatch := solver_isMatching (build_bipartite_graph
    (expand_by_capacity prefs_m caps_m).1 (expand_by_capacity prefs_m caps_m).2
    (expand_by_capacity prefs_f caps_f).1 (expand_by_capacity prefs_f caps_f).2 bonus)
  have hdedup := dedup_sublist (expand_by_capacity prefs_m caps_m).2
    (expand_by_capacity prefs_f caps_f).2
    (run_maximum_cardinality_max_weight (build_bipartite_graph
      (expand_by_capacity prefs_m caps_m).1 (expand_by_capacity prefs_m caps_m).2
      (expand_by_capacity prefs_f caps_f).1 (expand_by_capacity prefs_f caps_f).2 bonus)) []
  constructor
  · rw [List.countP_map]
    refine le_trans (hdedup.countP_le _) ?_
    refine le_trans (le_of_eq ?_) (count_parent_le_filter (expand_by_capacity prefs_m caps_m).2
      name _ (fun e => e.ms) (isMatching_ms_nodup hGmatch) ?_)
    · rfl
    · intro e he heq
      have heG := hGsub.subset he
      have hems : e.ms ∈ Dict.keys (expand_by_capacity prefs_m caps_m).1 :=
        (mem_build_iff.1 heG).1
      rw [(expand_keys_eq prefs_m caps_m hm).1, ← (expand_keys_eq prefs_m caps_m hm).2] at hems
      obtain ⟨v, hv⟩ := Option.isSome_iff_exists.1 (Dict.get?_isSome_of_mem_keys hems)
      rw [hv] at heq
      simp only [Option.getD_some] at heq
      rw [← heq]
      exact Dict.mem_of_get?_eq_some hv
  · rw [List.countP_map]
    refine le_trans (hdedup.countP_le _) ?_
    refine le_trans (le_of_eq ?_) (count_parent_le_filter (expand_by_capacity prefs_f caps_f).2
      name _ (fun e => e.fs) (isMatching_fs_nodup hGmatch) ?_)
    · rfl
    · intro e he heq
      have heG := hGsub.subset he
      have hefs : e.fs ∈ Dict.keys (expand_by_capacity prefs_f caps_f).1 :=
        (mem_build_iff.1 heG).2.1
      rw [(expand_keys_eq prefs_f caps_f hf).1, ← (expand_keys_eq prefs_f caps_f hf).2] at hefs
      obtain ⟨v, hv⟩ := Option.isSome_iff_exists.1 (Dict.get?_isSome_of_mem_keys hefs)
      rw [hv] at heq
      simp only [Option.getD_some] at heq
      rw [← heq]
      exact Dict.mem_of_get?_eq_some hv

/-! ### Claim theorems -/

/-- C1: the solver's output matching is lexicographically optimal for every graph
produced by the graph builder: no matching over the same graph has strictly greater
cardinality, and among matchings of the output's cardinality none has strictly
greater total weight.  (The solver is modelled from the spec, §4.4, since
`networkx.max_weight_matching` is external library code.) -/
theorem solver_lexicographically_optimal
    (emp : Dict (Dict Nat)) (s2m : Dict String) (efp : Dict (Dict Nat))
    (s2f : Dict String) (overlap_bonus : Nat) (m : List Edge)
    (hm : m.Sublist (build_bipartite_graph emp s2m efp s2f overlap_bonus))
    (hmatch : isMatching m) :
    m.length ≤ (run_maximum_cardinality_max_weight
        (build_bipartite_graph emp s2m efp s2f overlap_bonus)).length ∧
      (m.length = (run_maximum_cardinality_max_weight
          (build_bipartite_graph emp s2m efp s2f overlap_bonus)).length →
        matchWeight m ≤ matchWeight (run_maximum_cardinality_max_weight
          (build_bipartite_graph emp s2m efp s2f overlap_bonus))) := by
  have h := solver_optimal _ m hm hmatch
  unfold lexLE at h
  exact ⟨by omega, fun hlen => by omega⟩

/-- Witness for C1 at a concrete two-edge graph and the singleton matching. -/
theorem solver_lexicographically_optimal_witness :
    ([⟨"A_slot1", "F_slot1", 5⟩] : List Edge).Sublist
        (build_bipartite_graph [("A_slot1", [("F", 5)])] [("A_slot1", "A")]
          [("F_slot1", [])] [("F_slot1", "F")] 2) ∧
      isMatching [⟨"A_slot1", "F_slot1", 5⟩] ∧
      1 ≤ (run_maximum_cardinality_max_weight
        (build_bipartite_graph [("A_slot1", [("F", 5)])] [("A_slot1", "A")]
          [("F_slot1", [])] [("F_slot1", "F")] 2)).length :=
  ⟨by decide, by decide,
    (solver_lexicographically_optimal [("A_slot1", [("F", 5)])] [("A_slot1", "A")]
      [("F_slot1", [])] [("F_slot1", "F")] 2 [⟨"A_slot1", "F_slot1", 5⟩]
      (by decide) (by decide)).1⟩

/-- C2: for every mentor-slot/founder-slot pair the graph has an edge iff at least one
parent's preference map assigns the other parent nonzero points; an existing edge's
weight is `mentor_points + founder_points` plus the overlap bonus exactly when both
are nonzero; and every edge of the graph has strictly positive weight. -/
theorem edge_existence_weight_spec (emp : Dict (Dict Nat)) (s2m : Dict String)
    (efp : Dict (Dict Nat)) (s2f : Dict String) (overlap_bonus : Nat)
    (ms fs : String) (hms : ms ∈ Dict.keys emp) (hfs : fs ∈ Dict.keys efp) :
    ((∃ w, Edge.mk ms fs w ∈ build_bipartite_graph emp s2m efp s2f overlap_bonus) ↔
      (0 < Dict.getD ((Dict.get? emp ms).getD []) ((Dict.get? s2f fs).getD "") 0 ∨
       0 < Dict.getD ((Dict.get? efp fs).getD []) ((Dict.get? s2m ms).getD "") 0)) ∧
    (∀ w, Edge.mk ms fs w ∈ build_bipartite_graph emp s2m efp s2f overlap_bonus →
      w = Dict.getD ((Dict.get? emp ms).getD []) ((Dict.get? s2f fs).getD "") 0 +
          Dict.getD ((Dict.get? efp fs).getD []) ((Dict.get? s2m ms).getD "") 0 +
          (if 0 < Dict.getD ((Dict.get? emp ms).getD []) ((Dict.get? s2f fs).getD "") 0 ∧
              0 < Dict.getD ((Dict.get? efp fs).getD []) ((Dict.get? s2m ms).getD "") 0
           then overlap_bonus else 0)) ∧
    (∀ e ∈ build_bipartite_graph emp s2m efp s2f overlap_bonus, 0 < e.w) := by
  refine ⟨⟨?_, ?_⟩, ?_, build_weight_pos⟩
  · rintro ⟨w, hw⟩
    exact (mem_build_iff.1 hw).2.2.1
  · intro hcond
    refine ⟨Dict.getD ((Dict.get? emp ms).getD []) ((Dict.get? s2f fs).getD "") 0 +
        Dict.getD ((Dict.get? efp fs).getD []) ((Dict.get? s2m ms).getD "") 0 +
        (if 0 < Dict.getD ((Dict.get? emp ms).getD []) ((Dict.get? s2f fs).getD "") 0 ∧
            0 < Dict.getD ((Dict.get? efp fs).getD []) ((Dict.get? s2m ms).getD "") 0
         then overlap_bonus else 0),
      mem_build_iff.2 ⟨hms, hfs, hcond, rfl⟩⟩
  · intro w hw
    exact (mem_build_iff.1 hw).2.2.2

/-- Witness for C2 on a concrete mutual-interest pair: the edge exists. -/
theorem edge_existence_weight_spec_witness :
    "A_slot1" ∈ Dict.keys ([("A_slot1", [("F", 5)])] : Dict (Dict Nat)) ∧
      "F_slot1" ∈ Dict.keys ([("F_slot1", [("A", 4)])] : Dict (Dict Nat)) ∧
      (∃ w, Edge.mk "A_slot1" "F_slot1" w ∈
        build_bipartite_graph [("A_slot1", [("F", 5)])] [("A_slot1", "A")]
          [("F_slot1", [("A", 4)])] [("F_slot1", "F")] 2) :=
  ⟨by decide, by decide,
    ((edge_existence_weight_spec [("A_slot1", [("F", 5)])] [("A_slot1", "A")]
      [("F_slot1", [("A", 4)])] [("F_slot1", "F")] 2 "A_slot1" "F_slot1"
      (by decide) (by decide)).1).2 (by decide)⟩

/-- C3: for every input graph, the edge set returned by the solver is a valid matching:
no slot node occurs in more than one selected edge.  (Solver modelled from the spec,
§4.4, as the library routine is external.) -/
theorem solver_output_is_matching (G : List Edge) :
    isMatching (run_maximum_cardinality_max_weight G) :=
  solver_isMatching G

/-- C4: for every participant on either side, slot expansion generates exactly
capacity-many slots, each slot carrying the same preference map as its parent and a
back-reference to the parent. -/
theorem expansion_slots_spec (prefs : Dict (Dict Nat)) (caps : Dict Int)
    (name : String) (c : Int) (hnodup : (Dict.keys caps).Nodup)
    (hmem : (name, c) ∈ caps) (hc : 0 ≤ c) :
    (((((expand_mentors_by_capacity prefs caps).2).filter
        (fun q => q.2 == name)).length : Int) = c ∧
      ∀ i, i < c.toNat →
        Dict.get? (expand_mentors_by_capacity prefs caps).1 (slotName name i) =
            some (Dict.getD prefs name []) ∧
          Dict.get? (expand_mentors_by_capacity prefs caps).2 (slotName name i) =
            some name) ∧
    (((((expand_founders_by_capacity prefs caps).2).filter
        (fun q => q.2 == name)).length : Int) = c ∧
      ∀ i, i < c.toNat →
        Dict.get? (expand_founders_by_capacity prefs caps).1 (slotName name i) =
            some (Dict.getD prefs name []) ∧
          Dict.get? (expand_founders_by_capacity prefs caps).2 (slotName name i) =
            some name) := by
  have hcount : ((((expand_by_capacity prefs caps).2).filter
      (fun q => q.2 == name)).length : Int) = c := by
    rw [expand_by_capacity_eq prefs caps (slotNames_nodup caps hnodup)]
    show (((slotEntries caps).filter (fun q => q.2 == name)).length : Int) = c
    rw [slotEntries_count name c caps hnodup hmem]
    omega
  have hslots : ∀ i, i < c.toNat →
      Dict.get? (expand_by_capacity prefs caps).1 (slotName name i) =
          some (Dict.getD prefs name []) ∧
        Dict.get? (expand_by_capacity prefs caps).2 (slotName name i) = some name :=
    fun i hi => expand_get? prefs caps hnodup hmem hi
  exact ⟨⟨hcount, hslots⟩, hcount, hslots⟩

/-- Witness for C4: a participant of capacity 2 gets exactly the two slots
`A_slot1`, `A_slot2`, both carrying its preference map. -/
theorem expansion_slots_spec_witness :
    (Dict.keys ([("A", 2)] : Dict Int)).Nodup ∧ ("A", (2 : Int)) ∈ ([("A", 2)] : Dict Int) ∧
      (0 : Int) ≤ 2 ∧
      ((((expand_mentors_by_capacity [("A", [("F", 5)])] [("A", 2)]).2).filter
          (fun q => q.2 == "A")).length : Int) = 2 :=
  ⟨by decide, by decide, by decide,
    ((expansion_slots_spec [("A", [("F", 5)])] [("A", 2)] "A" 2
      (by decide) (by decide) (by decide)).1).1⟩

/-- C6 as stated is false on the code: a parseable capacity below 1 is stored as-is;
the row `["M","","","","","","0"]` loads mentor `M` with capacity `0 < 1`. -/
theorem capacity_below_one_counterexample :
    Dict.get? (load_mentor_data [["M", "", "", "", "", "", "0"]]).2 "M" = some 0 ∧
      ¬ (1 ≤ (0 : Int)) := by
  constructor
  · decide
  · decide

/-- C6 amended: a capacity string on which `int(float(...))` raises `ValueError`
is caught and falls back to 1 rather than failing; one that parses to an
infinity raises an `OverflowError` that `except ValueError` does not catch, so
the loader fails on such a row (`Except.error` in the checked parse); and any
successfully converted value is stored exactly as-is, with no lower bound —
including values below 1. -/
theorem capacity_fallback_spec :
    (∀ s, py_int_of_float (strip s) = PyIntFloat.valueError →
      parse_capacity s = 1 ∧ parse_capacity_checked s = Except.ok 1) ∧
    (∀ s, py_int_of_float (strip s) = PyIntFloat.overflowError →
      parse_capacity_checked s = Except.error ()) ∧
    (∀ s v, py_int_of_float (strip s) = PyIntFloat.ok v →
      parse_capacity s = v ∧ parse_capacity_checked s = Except.ok v) ∧
    (∀ row : List String, row ≠ [] →
      Dict.get? (load_mentor_data [row]).2 (strip (row.headD "")) =
        some (parse_capacity (capacity_field row))) := by
  refine ⟨fun s h => ?_, fun s h => ?_, fun s v h => ?_, fun row hrow => ?_⟩
  · rw [parse_capacity, parse_capacity_checked, h]
    exact ⟨rfl, rfl⟩
  · rw [parse_capacity_checked, h]
  · rw [parse_capacity, parse_capacity_checked, h]
    exact ⟨rfl, rfl⟩
  · rw [load_mentor_data]
    simp only [List.foldl_cons, List.foldl_nil]
    rw [load_mentor_row]
    rw [if_neg (by simpa [List.isEmpty_iff] using hrow)]
    show Dict.get? (Dict.insert ([] : Dict Int) (strip (row.headD ""))
        (parse_capacity (capacity_field row))) (strip (row.headD "")) =
      some (parse_capacity (capacity_field row))
    exact Dict.get?_insert_self _ _ _

/-- Witness for the amended C6: `"abc"` raises `ValueError` and falls back to 1;
`"inf"` raises the uncaught `OverflowError`, failing the checked parse; `"1e3"`
converts to 1000 and is stored as-is; and a single-row load stores the parsed
capacity. -/
theorem capacity_fallback_spec_witness :
    (py_int_of_float (strip "abc") = PyIntFloat.valueError ∧
      parse_capacity "abc" = 1 ∧ parse_capacity_checked "abc" = Except.ok 1) ∧
    (py_int_of_float (strip "inf") = PyIntFloat.overflowError ∧
      parse_capacity_checked "inf" = Except.error ()) ∧
    (py_int_of_float (strip "1e3") = PyIntFloat.ok 1000 ∧
      parse_capacity "1e3" = 1000 ∧ parse_capacity_checked "1e3" = Except.ok 1000) ∧
    ((["M"] : List String) ≠ [] ∧
      Dict.get? (load_mentor_data [["M"]]).2 (strip (List.headD ["M"] "")) =
        some (parse_capacity (capacity_field ["M"]))) :=
  ⟨⟨by decide, capacity_fallback_spec.1 "abc" (by decide)⟩,
    ⟨by decide, capacity_fallback_spec.2.1 "inf" (by decide)⟩,
    ⟨by decide, capacity_fallback_spec.2.2.1 "1e3" 1000 (by decide)⟩,
    ⟨by decide, capacity_fallback_spec.2.2.2 ["M"] (by decide)⟩⟩

theorem enumFrom_append_own {α : Type} :
    ∀ (l1 l2 : List α) (n : Nat),
      List.enumFrom n (l1 ++ l2) =
        List.enumFrom n l1 ++ List.enumFrom (n + l1.length) l2 := by
  intro l1
  induction l1 with
  | nil => intro l2 n; simp
  | cons a l1 ih =>
    intro l2 n
    simp only [List.cons_append, List.enumFrom_cons, ih, List.length_cons]
    rw [show n + 1 + l1.length = n + (l1.length + 1) from by omega]

theorem getElem?_drop_own {α : Type} :
    ∀ (l : List α) (n i : Nat), (l.drop n)[i]? = l[n + i]? := by
  intro l
  induction l with
  | nil => intro n i; simp
  | cons a l ih =>
    intro n i
    cases n with
    | zero => simp
    | succ n =>
      rw [List.drop_succ_cons, ih n i,
        show n + 1 + i = (n + i) + 1 from by omega, List.getElem?_cons_succ]

theorem mem_enumFrom_own {α : Type} :
    ∀ (l : List α) (n : Nat) (y : Nat × α), y ∈ List.enumFrom n l →
      ∃ k, y.1 = n + k ∧ l[k]? = some y.2 := by
  intro l
  induction l with
  | nil => intro n y hy; simp at hy
  | cons a l ih =>
    intro n y hy
    rw [List.enumFrom_cons] at hy
    rcases List.mem_cons.1 hy with h | h
    · subst h
      exact ⟨0, by omega, by simp⟩
    · obtain ⟨k, hk, hy2⟩ := ih (n + 1) y h
      exact ⟨k + 1, by omega, by simpa using hy2⟩

/-- C10: if a participant's preference list names the same target more than once, the
resulting preference map keeps only the points from the last listed occurrence of that
target (the lower point value), not the first. -/
theorem duplicate_target_keeps_last (picks : List String) (t : String) (i j : Nat)
    (hij : i < j) (hj : j < picks.length) (hlen : picks.length ≤ 5) (ht : t ≠ "")
    (hi : strip (picks.getD i "") = t) (hjt : strip (picks.getD j "") = t)
    (hlast : ∀ k, j < k → k < picks.length → strip (picks.getD k "") ≠ t) :
    Dict.get? (parse_prefs picks) t = some (rank_to_points j) ∧
      rank_to_points j < rank_to_points i := by
  constructor
  · rw [parse_prefs_get? picks t ht]
    have hsplit : picks.enum =
        List.enumFrom 0 (picks.take j) ++
          ((j, picks[j]) :: List.enumFrom (j + 1) (picks.drop (j + 1))) := by
      conv_lhs => rw [List.enum, ← List.take_append_drop j picks]
      rw [enumFrom_append_own]
      have hdj : picks.drop j = picks[j] :: picks.drop (j + 1) :=
        List.drop_eq_getElem_cons hj
      rw [hdj, List.enumFrom_cons]
      have hlt : (picks.take j).length = j := by
        rw [List.length_take]
        omega
      rw [hlt]
      simp
    have hfind : (picks.enum.reverse).find? (fun ip => strip ip.2 == t) =
        some (j, picks[j]) := by
      rw [hsplit]
      refine find?_reverse_last _ _ _ _ ?_ ?_
      · have hgd : picks.getD j "" = picks[j] := by
          simp [List.getD_eq_getElem?_getD, List.getElem?_eq_getElem hj]
        show (strip (picks[j]) == t) = true
        rw [← hgd, hjt]
        simp
      · intro y hy
        obtain ⟨k, hk1, hk2⟩ := mem_enumFrom_own _ _ _ hy
        rw [getElem?_drop_own] at hk2
        have hbound : j + 1 + k < picks.length := by
          rcases List.getElem?_eq_some.1 hk2 with ⟨hb, _⟩
          exact hb
        have hval : picks.getD (j + 1 + k) "" = y.2 := by
          simp [List.getD_eq_getElem?_getD, hk2]
        have hne := hlast (j + 1 + k) (by omega) hbound
        rw [hval] at hne
        simp [hne]
    rw [hfind]
  · have hj5 : j < 5 := by omega
    have hi5 : i < j := hij
    interval_cases j <;> interval_cases i <;> decide

/-- Witness for C10: the list `["F", "X", "F"]` maps `F` to the points of index 2
(3 points), below the 5 points of index 0. -/
theorem duplicate_target_keeps_last_witness :
    Dict.get? (parse_prefs ["F", "X", "F"]) "F" = some (rank_to_points 2) ∧
      rank_to_points 2 < rank_to_points 0 :=
  duplicate_target_keeps_last ["F", "X", "F"] "F" 0 2 (by decide) (by decide)
    (by decide) (by decide) (by decide) (by decide)
    (fun k hk1 hk2 => by simp at hk2; omega)

theorem build_nil_founders (emp : Dict (Dict Nat)) (s2m s2f : Dict String) (b : Nat) :
    build_bipartite_graph emp s2m [] s2f b = [] := by
  rw [build_bipartite_graph]
  have hk : Dict.keys ([] : Dict (Dict Nat)) = [] := rfl
  rw [hk]
  simp

/-- C8: if either side has zero participants, the engine returns a well-defined empty
result with zero pairs and zero total synergy instead of failing. -/
theorem empty_side_empty_result (mentorRows founderRows : List (List String))
    (h : mentorRows = [] ∨ founderRows = []) :
    (run_matching mentorRows founderRows).pairs = [] ∧
      (run_matching mentorRows founderRows).used_pairs = [] ∧
      (run_matching mentorRows founderRows).total_weight = 0 := by
  rcases h with h | h
  · subst h
    exact ⟨rfl, rfl, rfl⟩
  · subst h
    have hbuild := build_nil_founders
      (expand_mentors_by_capacity (load_mentor_data mentorRows).1 (load_mentor_data mentorRows).2).1
      (expand_mentors_by_capacity (load_mentor_data mentorRows).1 (load_mentor_data mentorRows).2).2
      ([] : Dict String) 2
    simp only [run_matching, load_founder_data, List.foldl_nil, List.map_nil,
      expand_founders_by_capacity, expand_by_capacity]
    rw [hbuild]
    exact ⟨rfl, rfl, rfl⟩

/-- Witness for C8 at empty inputs on both sides. -/
theorem empty_side_empty_result_witness :
    (([] : List (List String)) = [] ∨ ([] : List (List String)) = []) ∧
      (run_matching [] []).pairs = [] :=
  ⟨Or.inl rfl, (empty_side_empty_result [] [] (Or.inl rfl)).1⟩

/-- C5: if several matched slot-pairs resolve to the same (mentor, founder) parent
pair, the aggregated result keeps that pair exactly once — the first-encountered
occurrence — and any two matched edges resolving to the same parent pair carry
identical weight (the weight depends only on the parents' identities). -/
theorem dedup_first_occurrence_spec (mentorRows founderRows : List (List String))
    (p : String × String) (e : Edge) :
    let loaded := load_mentor_data mentorRows
    let founder_prefs := load_founder_data founderRows
    let founder_caps : Dict Int := founder_prefs.map (fun q => (q.1, (2 : Int)))
    let em := expand_mentors_by_capacity loaded.1 loaded.2
    let ef := expand_founders_by_capacity founder_prefs founder_caps
    let G := build_bipartite_graph em.1 em.2 ef.1 ef.2 2
    let matched := run_maximum_cardinality_max_weight G
    (matched.find? (fun x => parentPair em.2 ef.2 x == p) = some e →
      (run_matching mentorRows founderRows).pairs.filter
          (fun r => (r.mentor, r.founder) == p) = [rowOf em.1 ef.1 em.2 ef.2 e]) ∧
    (∀ e1 ∈ matched, ∀ e2 ∈ matched,
      parentPair em.2 ef.2 e1 = parentPair em.2 ef.2 e2 → e1.w = e2.w) := by
  intro loaded founder_prefs founder_caps em ef G matched
  constructor
  · intro hfind
    have hpairs : (run_matching mentorRows founderRows).pairs =
        (dedupByKey em.2 ef.2 [] matched).map (rowOf em.1 ef.1 em.2 ef.2) := by
      show (aggregate em.1 ef.1 em.2 ef.2 matched).2.1 = _
      rw [aggregate_eq]
    rw [hpairs, List.filter_map]
    have hpred : ((fun r : PairRow => (r.mentor, r.founder) == p) ∘
        rowOf em.1 ef.1 em.2 ef.2) = (fun x => parentPair em.2 ef.2 x == p) := rfl
    rw [hpred]
    have hc : (dedupByKey em.2 ef.2 [] matched).countP
        (fun x => parentPair em.2 ef.2 x == p) ≤ 1 := by
      simpa using dedup_countP_le em.2 ef.2 p matched []
    have hkey := List.find?_some hfind
    rw [filter_eq_singleton hc
      (dedup_mem_of_find? em.2 ef.2 p matched [] e (List.not_mem_nil p) hfind) hkey]
    simp
  · intro e1 he1 e2 he2 hpp
    have hmn := (load_mentor_data_keys_nodup mentorRows).2
    have hfn : (Dict.keys founder_caps).Nodup := by
      show (Dict.keys (founder_prefs.map (fun q => (q.1, (2 : Int))))).Nodup
      rw [keys_caps_const]
      exact load_founder_data_keys_nodup founderRows
    have hw1 := build_weight_eq_synergy hmn hfn e1 ((solver_sublist G).subset he1)
    have hw2 := build_weight_eq_synergy hmn hfn e2 ((solver_sublist G).subset he2)
    have hpp2 : parentPair (expand_by_capacity loaded.1 loaded.2).2
        (expand_by_capacity founder_prefs founder_caps).2 e1 =
      parentPair (expand_by_capacity loaded.1 loaded.2).2
        (expand_by_capacity founder_prefs founder_caps).2 e2 := hpp
    rw [hw1, hw2, hpp2]

/-- Witness for C5: in the A/B vs F example the first matched edge for the pair
`(A, F)` is kept as the single result row for that pair. -/
theorem dedup_first_occurrence_spec_witness :
    let mrows := [["A", "F", "", "", "", "", "1"]]
    let frows := [["F", "A", "", "", "", ""]]
    let loaded := load_mentor_data mrows
    let founder_prefs := load_founder_data frows
    let founder_caps : Dict Int := founder_prefs.map (fun q => (q.1, (2 : Int)))
    let em := expand_mentors_by_capacity loaded.1 loaded.2
    let ef := expand_founders_by_capacity founder_prefs founder_caps
    let G := build_bipartite_graph em.1 em.2 ef.1 ef.2 2
    let matched := run_maximum_cardinality_max_weight G
    ∀ e : Edge, matched.find? (fun x => parentPair em.2 ef.2 x == ("A", "F")) = some e →
      (run_matching mrows frows).pairs.filter
          (fun r => (r.mentor, r.founder) == ("A", "F")) = [rowOf em.1 ef.1 em.2 ef.2 e] :=
  fun e hfind =>
    (dedup_first_occurrence_spec [["A", "F", "", "", "", "", "1"]]
      [["F", "A", "", "", "", ""]] ("A", "F") e).1 hfind

theorem counts_map_mem_iff {β : Type} (used : List (String × String))
    (f : (String × String) → String) (h : String → β) (name : String) (c : Nat) (b : β) :
    ((name, c, b) ∈ (used.foldl (fun d q => bump d (f q)) []).map
        (fun p => (p.1, p.2, h p.1)) ↔
      (0 < used.countP (fun q => f q == name) ∧
        c = used.countP (fun q => f q == name) ∧ b = h name)) := by
  have hnodup := foldl_bump_keys_nodup f used [] (by simp [Dict.keys])
  have hget := foldl_bump_get? f used [] name
  rw [show Dict.get? ([] : Dict Nat) name = none from rfl] at hget
  simp only [] at hget
  constructor
  · intro hmem
    obtain ⟨q, hq, hqe⟩ := List.mem_map.1 hmem
    obtain ⟨q1, q2⟩ := q
    simp only [Prod.mk.injEq] at hqe
    obtain ⟨h1, h2, h3⟩ := hqe
    subst h1
    subst h2
    have hsome : Dict.get? (used.foldl (fun d q => bump d (f q)) []) q1 = some q2 :=
      Dict.get?_eq_some_of_mem hnodup hq
    rw [hget] at hsome
    by_cases h0 : used.countP (fun q => f q == q1) = 0
    · rw [if_pos h0] at hsome
      simp at hsome
    · rw [if_neg h0] at hsome
      injection hsome with hc2
      exact ⟨by omega, hc2.symm, h3.symm⟩
  · rintro ⟨h0, hc, hb⟩
    have hsome : Dict.get? (used.foldl (fun d q => bump d (f q)) []) name =
        some (used.countP (fun q => f q == name)) := by
      rw [hget, if_neg (by omega)]
    have hmem := Dict.mem_of_get?_eq_some hsome
    subst hc
    subst hb
    exact List.mem_map.2 ⟨(name, used.countP (fun q => f q == name)), hmem, rfl⟩

/-- C7 as stated is false on the code: a mentor all of whose slots are unmatched is
omitted from the utilization summary entirely rather than reported with a lower
count.  Mentor `B` is loaded but has no edges, and no summary entry names `B`. -/
theorem summary_omission_counterexample :
    "B" ∈ Dict.keys (load_mentor_data
        [["A", "F", "", "", "", "", "1"], ["B", "", "", "", "", "", "1"]]).1 ∧
      ∀ q ∈ (run_matching [["A", "F", "", "", "", "", "1"], ["B", "", "", "", "", "", "1"]]
          [["F", "A", "", "", "", ""]]).mentor_summary, q.1 ≠ "B" := by
  constructor
  · decide
  · decide

/-- C7 amended: every participant that occurs in at least one deduplicated pair gets a
summary entry reporting its matched count (mentors against the stored capacity,
founders against the constant 2); a participant with zero matched pairs is omitted
from the summary (and no exception is raised) rather than reported with count 0. -/
theorem summary_reports_matched_counts (mentorRows founderRows : List (List String))
    (name : String) :
    ((∃ c capopt, (name, c, capopt) ∈
        (run_matching mentorRows founderRows).mentor_summary) ↔
      0 < (run_matching mentorRows founderRows).used_pairs.countP
        (fun q => q.1 == name)) ∧
    (∀ c capopt, (name, c, capopt) ∈
        (run_matching mentorRows founderRows).mentor_summary →
      c = (run_matching mentorRows founderRows).used_pairs.countP
          (fun q => q.1 == name) ∧
        capopt = Dict.get? (load_mentor_data mentorRows).2 name) ∧
    ((∃ c k, (name, c, k) ∈
        (run_matching mentorRows founderRows).founder_summary) ↔
      0 < (run_matching mentorRows founderRows).used_pairs.countP
        (fun q => q.2 == name)) ∧
    (∀ c k, (name, c, k) ∈
        (run_matching mentorRows founderRows).founder_summary →
      c = (run_matching mentorRows founderRows).used_pairs.countP
          (fun q => q.2 == name) ∧ k = 2) := by
  have hms : (run_matching mentorRows founderRows).mentor_summary =
      ((run_matching mentorRows founderRows).used_pairs.foldl
          (fun d q => bump d q.1) []).map
        (fun p => (p.1, p.2, Dict.get? (load_mentor_data mentorRows).2 p.1)) := by
    show (((run_matching mentorRows founderRows).used_pairs.foldl
        bumpStep ([], [])).1).map _ = _
    rw [foldl_bumpStep_split]
  have hfs : (run_matching mentorRows founderRows).founder_summary =
      ((run_matching mentorRows founderRows).used_pairs.foldl
          (fun d q => bump d q.2) []).map (fun p => (p.1, p.2, 2)) := by
    show (((run_matching mentorRows founderRows).used_pairs.foldl
        bumpStep ([], [])).2).map _ = _
    rw [foldl_bumpStep_split]
  refine ⟨?_, ?_, ?_, ?_⟩
  · rw [hms]
    constructor
    · rintro ⟨c, capopt, hmem⟩
      exact ((counts_map_mem_iff _ (fun q => q.1) _ name c capopt).1 hmem).1
    · intro h0
      exact ⟨_, _, (counts_map_mem_iff _ (fun q => q.1)
        (fun s => Dict.get? (load_mentor_data mentorRows).2 s) name _ _).2
        ⟨h0, rfl, rfl⟩⟩
  · rw [hms]
    intro c capopt hmem
    have := (counts_map_mem_iff _ (fun q => q.1) _ name c capopt).1 hmem
    exact ⟨this.2.1, this.2.2⟩
  · rw [hfs]
    constructor
    · rintro ⟨c, k, hmem⟩
      exact ((counts_map_mem_iff _ (fun q => q.2) (fun _ => (2 : Nat)) name c k).1 hmem).1
    · intro h0
      exact ⟨_, _, (counts_map_mem_iff _ (fun q => q.2)
        (fun _ => (2 : Nat)) name _ _).2 ⟨h0, rfl, rfl⟩⟩
  · rw [hfs]
    intro c k hmem
    have := (counts_map_mem_iff _ (fun q => q.2) (fun _ => (2 : Nat)) name c k).1 hmem
    exact ⟨this.2.1, this.2.2⟩

/-- Witness for the amended C7: mentor `A` is matched once and its summary entry
reports count 1 against its stored capacity. -/
theorem summary_reports_matched_counts_witness :
    ("A", 1, some (1 : Int)) ∈ (run_matching [["A", "F", "", "", "", "", "1"]]
        [["F", "A", "", "", "", ""]]).mentor_summary →
      ((1 : Nat) = (run_matching [["A", "F", "", "", "", "", "1"]]
          [["F", "A", "", "", "", ""]]).used_pairs.countP (fun q => q.1 == "A") ∧
        some (1 : Int) = Dict.get? (load_mentor_data [["A", "F", "", "", "", "", "1"]]).2 "A") :=
  fun hmem =>
    (summary_reports_matched_counts [["A", "F", "", "", "", "", "1"]]
      [["F", "A", "", "", "", ""]] "A").2.1 1 (some 1) hmem

/-- C9: no participant is ever assigned more partners than its capacity: each mentor
occurs in at most capacity-many deduplicated result pairs, and each founder in at
most `founder_capacity = 2` of them. -/
theorem capacity_never_exceeded (mentorRows founderRows : List (List String))
    (name : String) :
    (∀ c : Int, Dict.get? (load_mentor_data mentorRows).2 name = some c → 0 ≤ c →
      (((run_matching mentorRows founderRows).pairs.countP
          (fun r => r.mentor == name) : Int) ≤ c)) ∧
    ((run_matching mentorRows founderRows).pairs.countP
        (fun r => r.founder == name) ≤ 2) := by
  have hmn := (load_mentor_data_keys_nodup mentorRows).2
  have hfn : (Dict.keys ((load_founder_data founderRows).map
      (fun q => (q.1, (2 : Int))))).Nodup := by
    rw [keys_caps_const]
    exact load_founder_data_keys_nodup founderRows
  have hpairs : (run_matching mentorRows founderRows).pairs =
      (dedupByKey
        (expand_by_capacity (load_mentor_data mentorRows).1 (load_mentor_data mentorRows).2).2
        (expand_by_capacity (load_founder_data founderRows)
          ((load_founder_data founderRows).map (fun q => (q.1, (2 : Int))))).2 []
        (run_maximum_cardinality_max_weight (build_bipartite_graph
          (expand_by_capacity (load_mentor_data mentorRows).1 (load_mentor_data mentorRows).2).1
          (expand_by_capacity (load_mentor_data mentorRows).1 (load_mentor_data mentorRows).2).2
          (expand_by_capacity (load_founder_data founderRows)
            ((load_founder_data founderRows).map (fun q => (q.1, (2 : Int))))).1
          (expand_by_capacity (load_founder_data founderRows)
            ((load_founder_data founderRows).map (fun q => (q.1, (2 : Int))))).2 2))).map
        (rowOf
          (expand_by_capacity (load_mentor_data mentorRows).1 (load_mentor_data mentorRows).2).1
          (expand_by_capacity (load_founder_data founderRows)
            ((load_founder_data founderRows).map (fun q => (q.1, (2 : Int))))).1
          (expand_by_capacity (load_mentor_data mentorRows).1 (load_mentor_data mentorRows).2).2
          (expand_by_capacity (load_founder_data founderRows)
            ((load_founder_data founderRows).map (fun q => (q.1, (2 : Int))))).2) := by
    show (aggregate _ _ _ _ _).2.1 = _
    rw [aggregate_eq]
    rfl
  obtain ⟨hm_le, hf_le⟩ := pairs_count_le_general
    (load_mentor_data mentorRows).1 (load_founder_data founderRows)
    (load_mentor_data mentorRows).2
    ((load_founder_data founderRows).map (fun q => (q.1, (2 : Int)))) hmn hfn 2 name
  constructor
  · intro c hc hc0
    have hmem := Dict.mem_of_get?_eq_some hc
    have hfilter : ((((expand_by_capacity (load_mentor_data mentorRows).1
        (load_mentor_data mentorRows).2).2).filter (fun q => q.2 == name)).length) = c.toNat := by
      rw [expand_by_capacity_eq _ _ (slotNames_nodup _ hmn)]
      show (((slotEntries (load_mentor_data mentorRows).2).filter
        (fun q => q.2 == name)).length) = c.toNat
      exact slotEntries_count name c (load_mentor_data mentorRows).2 hmn hmem
    rw [hpairs]
    have hle := le_trans hm_le (le_of_eq hfilter)
    omega
  · rw [hpairs]
    refine le_trans hf_le ?_
    by_cases hk : name ∈ Dict.keys (load_founder_data founderRows)
    · have hmem : (name, (2 : Int)) ∈ (load_founder_data founderRows).map
          (fun q => (q.1, (2 : Int))) := mem_caps_const.2 ⟨hk, rfl⟩
      have hcount := slotEntries_count name 2
        ((load_founder_data founderRows).map (fun q => (q.1, (2 : Int)))) hfn hmem
      rw [expand_by_capacity_eq _ _ (slotNames_nodup _ hfn)]
      show (((slotEntries ((load_founder_data founderRows).map
          (fun q => (q.1, (2 : Int))))).filter (fun q => q.2 == name)).length) ≤ 2
      rw [hcount]
      decide
    · have hk2 : name ∉ Dict.keys ((load_founder_data founderRows).map
          (fun q => (q.1, (2 : Int)))) := by
        rw [keys_caps_const]
        exact hk
      rw [expand_by_capacity_eq _ _ (slotNames_nodup _ hfn)]
      show (((slotEntries ((load_founder_data founderRows).map
          (fun q => (q.1, (2 : Int))))).filter (fun q => q.2 == name)).length) ≤ 2
      rw [slotEntries_filter_not_mem name _ hk2]
      simp

/-- Witness for C9: mentor `A` of capacity 1 appears in at most one pair. -/
theorem capacity_never_exceeded_witness :
    Dict.get? (load_mentor_data [["A", "F", "", "", "", "", "1"]]).2 "A" = some 1 ∧
      (0 : Int) ≤ 1 ∧
      (((run_matching [["A", "F", "", "", "", "", "1"]]
          [["F", "A", "", "", "", ""]]).pairs.countP
        (fun r => r.mentor == "A") : Int) ≤ 1) :=
  ⟨by decide, by decide,
    (capacity_never_exceeded [["A", "F", "", "", "", "", "1"]]
      [["F", "A", "", "", "", ""]] "A").1 1 (by decide) (by decide)⟩

end MentorMatch
